import Mathlib

/-!
Shallow embedding of `src/python/director/viewerclient.py`: the lazy
path-addressed scene tree (`LazyTree`), the pending-change queue
(`CommandQueue`), the core synchronizer (`CoreVisualizer`) with its
load/draw/delete mutations, the publish/serialize protocol and the
response handler, and the thin `Visualizer` handle.

Modelling conventions:
* Python floats are embedded as rationals (`ℚ`); no rounding is involved in
  any claim under study.
* A 4x4 numpy matrix is a 16-field record `Mat4`.
* Python's `defaultdict(lambda: LazyTree())` children map is an ordered
  association list.  A `d[k]` access on a defaultdict both returns the child
  and inserts a fresh child when the key is missing; reads are embedded by
  `LazyTree.getdescendant` (which follows missing links into fresh default
  nodes) and the insertion side effect by `LazyTree.update`/`LazyTree.vivify`,
  which rebuild the tree along the accessed path.
* Python `set`s of paths are embedded as insertion-ordered duplicate-free
  lists (`addPath` is `set.add`); iteration order of a Python set is
  arbitrary, and no claim depends on the order chosen here.
* A raised Python exception is an `err := some msg` component in an
  `OpResult`; the `state` component is the state as left behind by the
  mutations performed before the raise.
* The LCM transport is external: `publish` takes a `sendOk` flag describing
  whether `lcm.publish` succeeds or raises, and a successful send is
  returned as the `sent` message.  The `to_lcm` JSON envelope is transport
  encoding and is not modelled; `Message` is the `data` dictionary built by
  `serialize_queue`.
-/

namespace Viewer

/-- A path: ordered sequence of name segments (Python tuple of strings). -/
abbrev Path := List String

/-- A 4x4 matrix of rationals (embedding of a numpy 4x4 float array). -/
structure Mat4 where
  m00 : ℚ
  m01 : ℚ
  m02 : ℚ
  m03 : ℚ
  m10 : ℚ
  m11 : ℚ
  m12 : ℚ
  m13 : ℚ
  m20 : ℚ
  m21 : ℚ
  m22 : ℚ
  m23 : ℚ
  m30 : ℚ
  m31 : ℚ
  m32 : ℚ
  m33 : ℚ
deriving DecidableEq, Repr

/-- `np.eye(4)`: the identity matrix, the default transform everywhere. -/
def eye4 : Mat4 := ⟨1,0,0,0, 0,1,0,0, 0,0,1,0, 0,0,0,1⟩

/-- Entry of a `Mat4` by numeric row/column index (0..3). -/
def Mat4.entry (m : Mat4) : Nat → Nat → ℚ
  | 0, 0 => m.m00
  | 0, 1 => m.m01
  | 0, 2 => m.m02
  | 0, 3 => m.m03
  | 1, 0 => m.m10
  | 1, 1 => m.m11
  | 1, 2 => m.m12
  | 1, 3 => m.m13
  | 2, 0 => m.m20
  | 2, 1 => m.m21
  | 2, 2 => m.m22
  | 2, 3 => m.m23
  | 3, 0 => m.m30
  | 3, 1 => m.m31
  | 3, 2 => m.m32
  | 3, 3 => m.m33
  | _, _ => 0

/-- Integer square root by bounded search; mathematically `Nat.sqrt`, spelled
so that it evaluates under the kernel (only tiny values occur in practice). -/
def natSqrtB (n : Nat) : Nat :=
  ((List.range (n + 1)).filter (fun k => k * k ≤ n)).foldl (fun a b => max a b) 0

/-- Modelled from the spec: rational square root used by the transform codec
below; exact on perfect squares (in particular on the values arising from the
identity rotation, the only value the spec pins down). -/
def ratSqrt (x : ℚ) : ℚ := (natSqrtB x.num.toNat : ℚ) / (natSqrtB x.den : ℚ)

/-- Modelled from the spec: `transformations.translation_from_matrix` — the
external matrix-decomposition library (`director.thirdparty.transformations`)
is out of scope and not under `src/`; the spec specifies the Transform Codec
at its interface as extracting the translation vector of an affine 4x4
transform, i.e. the top three entries of the last column. -/
def translation_from_matrix (m : Mat4) : List ℚ :=
  [m.m03, m.m13, m.m23]

/-- Modelled from the spec: `transformations.quaternion_from_matrix` — the
external matrix-decomposition library is out of scope and not under `src/`;
the spec specifies the codec at its interface as extracting the rotation
quaternion `[w, x, y, z]` of the transform, with the identity rotation
encoding to the identity quaternion.  Implemented as the standard
branch-on-trace extraction, exact whenever the square roots involved are
rational (in particular at the identity). -/
def quaternion_from_matrix (m : Mat4) : List ℚ :=
  let tr := m.m00 + m.m11 + m.m22 + m.m33
  if m.m33 < tr then
    let s := (1/2 : ℚ) / ratSqrt (tr * m.m33)
    [tr * s, (m.m21 - m.m12) * s, (m.m02 - m.m20) * s, (m.m10 - m.m01) * s]
  else
    let ijk : Nat × Nat × Nat :=
      if m.m11 > m.m00 then
        (if m.m22 > m.m11 then (2, 0, 1) else (1, 2, 0))
      else
        (if m.m22 > m.m00 then (2, 0, 1) else (0, 1, 2))
    let i := ijk.1
    let j := ijk.2.1
    let k := ijk.2.2
    let t := m.entry i i - (m.entry j j + m.entry k k) + m.m33
    let q : Nat → ℚ := fun n =>
      if n = i then t
      else if n = j then m.entry i j + m.entry j i
      else if n = k then m.entry k i + m.entry i k
      else 0
    let s := (1/2 : ℚ) / ratSqrt (t * m.m33)
    [(m.entry k j - m.entry j k) * s, q 0 * s, q 1 * s, q 2 * s]

/-- The wire form of a transform:
`{"translation": [...], "quaternion": [...]}` (`serialize_transform`). -/
structure TransformRecord where
  translation : List ℚ
  quaternion : List ℚ
deriving DecidableEq, Repr

/-- `serialize_transform(tform)` (viewerclient.py lines 24-28). -/
def serialize_transform (tform : Mat4) : TransformRecord :=
  ⟨translation_from_matrix tform, quaternion_from_matrix tform⟩

/-- The closed set of geometry primitives (`Box`, `Sphere`, `Ellipsoid`,
`Cylinder`, `Triad`, viewerclient.py lines 51-88). -/
inductive Geometry where
  | box (lengths : List ℚ)
  | sphere (radius : ℚ)
  | ellipsoid (radii : List ℚ)
  | cylinder (length radius : ℚ)
  | triad
deriving DecidableEq, Repr

/-- The primitive-specific parameter dictionary produced by each primitive's
`serialize` method: a `type` discriminator plus that type's parameters. -/
inductive ShapeParams where
  | box (lengths : List ℚ)
  | sphere (radius : ℚ)
  | ellipsoid (radii : List ℚ)
  | cylinder (length radius : ℚ)
  | triad
deriving DecidableEq, Repr

/-- The `"type"` field of a serialized primitive dictionary. -/
def ShapeParams.type : ShapeParams → String
  | .box _ => "box"
  | .sphere _ => "sphere"
  | .ellipsoid _ => "ellipsoid"
  | .cylinder _ _ => "cylinder"
  | .triad => "triad"

/-- `Box.serialize` / `Sphere.serialize` / ... (viewerclient.py lines 51-88):
each primitive produces its tagged parameter dictionary. -/
def Geometry.serialize : Geometry → ShapeParams
  | .box lengths => .box lengths
  | .sphere radius => .sphere radius
  | .ellipsoid radii => .ellipsoid radii
  | .cylinder length radius => .cylinder length radius
  | .triad => .triad

/-- `GeometryData` (viewerclient.py lines 31-43): one primitive bound to a
color and a local transform. -/
structure GeometryData where
  geometry : Geometry
  color : List ℚ
  transform : Mat4
deriving DecidableEq, Repr

/-- `GeometryData(geometry)` with the default arguments
`color=(1., 1., 1., 1.)` and `transform=np.eye(4)`. -/
def GeometryData.ofGeometry (g : Geometry) : GeometryData :=
  ⟨g, [1, 1, 1, 1], eye4⟩

/-- A serialized geometry instance: the primitive's parameter dictionary
merged with its `color` and encoded `transform` (`GeometryData.serialize`,
viewerclient.py lines 39-43). -/
structure GeomRecord where
  shape : ShapeParams
  color : List ℚ
  transform : TransformRecord
deriving DecidableEq, Repr

/-- `GeometryData.serialize` (viewerclient.py lines 39-43). -/
def GeometryData.serialize (d : GeometryData) : GeomRecord :=
  ⟨d.geometry.serialize, d.color, serialize_transform d.transform⟩

/-- `LazyTree` (viewerclient.py lines 91-116): geometries, transform, and an
auto-vivifying children map, embedded as an insertion-ordered association
list (Python dicts preserve insertion order). -/
inductive LazyTree where
  | mk (geometries : List GeometryData) (transform : Mat4) (children : List (String × LazyTree))
deriving Repr

/-- `LazyTree()`: the default node — no geometries, identity transform, no
children. -/
def LazyTree.fresh : LazyTree := .mk [] eye4 []

/-- Field accessor. -/
def LazyTree.geometries : LazyTree → List GeometryData
  | .mk g _ _ => g

/-- Field accessor. -/
def LazyTree.transform : LazyTree → Mat4
  | .mk _ t _ => t

/-- Field accessor. -/
def LazyTree.children : LazyTree → List (String × LazyTree)
  | .mk _ _ c => c

/-- Dictionary lookup in the children association list (first match). -/
def getChild : List (String × LazyTree) → String → Option LazyTree
  | [], _ => none
  | (k, v) :: rest, key => if k = key then some v else getChild rest key

/-- Dictionary store `d[key] = v`: replaces the value at an existing key in
place, otherwise appends the new key at the end (Python dict semantics). -/
def setChild : List (String × LazyTree) → String → LazyTree → List (String × LazyTree)
  | [], key, v => [(key, v)]
  | (k, w) :: rest, key, v =>
    if k = key then (k, v) :: rest else (k, w) :: setChild rest key v

/-- Dictionary delete `del d[key]`: `none` when the key is absent (the
`KeyError` case). -/
def delChild : List (String × LazyTree) → String → Option (List (String × LazyTree))
  | [], _ => none
  | (k, w) :: rest, key =>
    if k = key then some rest else (delChild rest key).map (fun r => (k, w) :: r)

/- Structural equality test for trees (used only to furnish decidable
equality; Python compares nothing here). -/
mutual
def LazyTree.beq : LazyTree → LazyTree → Bool
  | .mk g1 t1 c1, .mk g2 t2 c2 =>
    decide (g1 = g2) && decide (t1 = t2) && LazyTree.beqList c1 c2
def LazyTree.beqList : List (String × LazyTree) → List (String × LazyTree) → Bool
  | [], [] => true
  | [], _ :: _ => false
  | _ :: _, [] => false
  | (k1, v1) :: r1, (k2, v2) :: r2 =>
    decide (k1 = k2) && LazyTree.beq v1 v2 && LazyTree.beqList r1 r2
end

mutual
theorem LazyTree.beq_iff : ∀ a b : LazyTree, LazyTree.beq a b = true ↔ a = b
  | .mk g1 t1 c1, .mk g2 t2 c2 => by
    rw [LazyTree.beq]
    simp only [Bool.and_eq_true, decide_eq_true_eq, LazyTree.mk.injEq]
    rw [LazyTree.beqList_iff c1 c2]
    tauto
theorem LazyTree.beqList_iff : ∀ a b : List (String × LazyTree),
    LazyTree.beqList a b = true ↔ a = b
  | [], [] => by simp [LazyTree.beqList]
  | [], _ :: _ => by simp [LazyTree.beqList]
  | _ :: _, [] => by simp [LazyTree.beqList]
  | (k1, v1) :: r1, (k2, v2) :: r2 => by
    rw [LazyTree.beqList]
    simp only [Bool.and_eq_true, decide_eq_true_eq, List.cons.injEq, Prod.mk.injEq,
      LazyTree.beq_iff v1 v2, LazyTree.beqList_iff r1 r2]
    try tauto
end

instance : DecidableEq LazyTree := fun a b => decidable_of_iff _ (LazyTree.beq_iff a b)

/-- `LazyTree.getdescendant(path)` as a read: the node reached by walking
`path`, following a missing link into the fresh default node a defaultdict
access would create (viewerclient.py lines 101-108). -/
def LazyTree.getdescendant : LazyTree → Path → LazyTree
  | t, [] => t
  | t, k :: ks => (((getChild t.children k).getD LazyTree.fresh)).getdescendant ks

/-- The insertion side effect of walking `path` through the defaultdict
children maps (`t = t[p]` creates every missing node), together with applying
`f` to the terminal node; a plain walk is `f = id`, a field assignment on the
returned node is the corresponding `f`. -/
def LazyTree.update : LazyTree → Path → (LazyTree → LazyTree) → LazyTree
  | t, [], f => f t
  | .mk g tf ch, k :: ks, f =>
    .mk g tf (setChild ch k (LazyTree.update ((getChild ch k).getD LazyTree.fresh) ks f))

/-- `getdescendant(path)` called purely for its auto-vivification side
effect. -/
def LazyTree.vivify (t : LazyTree) (p : Path) : LazyTree := t.update p id

/-- Whether a node actually exists at `path` (every link present). -/
def LazyTree.contains : LazyTree → Path → Bool
  | _, [] => true
  | t, k :: ks =>
    match getChild t.children k with
    | some c => c.contains ks
    | none => false

/- `LazyTree.descendants(prefix)` (viewerclient.py lines 110-116): for every
child, its path followed by that child's descendants, in insertion order. -/
mutual
def LazyTree.descendants : LazyTree → Path → List Path
  | .mk _ _ ch, pre => descendantsAux ch pre
def descendantsAux : List (String × LazyTree) → Path → List Path
  | [], _ => []
  | (k, v) :: rest, pre =>
    (pre ++ [k]) :: (v.descendants (pre ++ [k]) ++ descendantsAux rest pre)
end

/-- Walk an (existing) path and delete the named child of the terminal node;
`none` is the propagated `KeyError`. -/
def eraseChildAt : LazyTree → Path → String → Option LazyTree
  | .mk g tf ch, [], key => (delChild ch key).map (fun r => LazyTree.mk g tf r)
  | .mk g tf ch, k :: ks, key =>
    match getChild ch k with
    | none => none
    | some c => (eraseChildAt c ks key).map (fun c' => LazyTree.mk g tf (setChild ch k c'))

/- Number of nodes; measure used for tree induction. -/
mutual
def nodeCount : LazyTree → Nat
  | .mk _ _ ch => 1 + nodeCountAux ch
def nodeCountAux : List (String × LazyTree) → Nat
  | [] => 0
  | (_, c) :: rest => nodeCount c + nodeCountAux rest
end

/-- `CommandQueue` (viewerclient.py lines 119-131): the three pending-change
sets, embedded as insertion-ordered duplicate-free lists. -/
structure CommandQueue where
  draw : List Path
  load : List Path
  delete : List Path
deriving DecidableEq, Repr

/-- `set.add(path)`: idempotent insertion. -/
def addPath (l : List Path) (p : Path) : List Path :=
  if p ∈ l then l else l ++ [p]

/-- `CommandQueue.isempty` (viewerclient.py lines 125-126). -/
def CommandQueue.isempty (q : CommandQueue) : Bool :=
  q.draw.isEmpty && q.load.isEmpty && q.delete.isEmpty

/-- `CommandQueue.empty` / a freshly constructed queue: all three sets
empty. -/
def CommandQueue.emptied : CommandQueue := ⟨[], [], []⟩

/-- One record of the outgoing `delete` list: `{"path": path}`. -/
structure DeleteRecord where
  path : Path
deriving DecidableEq, Repr

/-- One record of the outgoing `load` list:
`{"path": path, "geometries": [...]}`. -/
structure LoadRecord where
  path : Path
  geometries : List GeomRecord
deriving DecidableEq, Repr

/-- One record of the outgoing `draw` list:
`{"path": path, "transform": serialize_transform(...)}`. -/
structure DrawRecord where
  path : Path
  transform : TransformRecord
deriving DecidableEq, Repr

/-- The dictionary built by `serialize_queue` (viewerclient.py lines
303-308), i.e. the outbound message payload. -/
structure Message where
  utime : ℤ
  delete : List DeleteRecord
  load : List LoadRecord
  draw : List DrawRecord
deriving DecidableEq, Repr

/-- The mutable state owned by a `CoreVisualizer`: its tree, its queue, and
the immediate-publish flag (viewerclient.py lines 203-213). -/
structure VisState where
  tree : LazyTree
  queue : CommandQueue
  publish_immediately : Bool
deriving DecidableEq, Repr

/-- State of a freshly constructed `CoreVisualizer`:
empty tree, empty queue, `publish_immediately = True`. -/
def initState : VisState := ⟨LazyTree.fresh, CommandQueue.emptied, true⟩

/-- A fresh `CoreVisualizer` switched to manual (batched) publishing. -/
def initBatched : VisState := ⟨LazyTree.fresh, CommandQueue.emptied, false⟩

/-- Result of one API call: the message handed to the transport (if any),
the exception raised (if any), and the state left behind. -/
structure OpResult where
  sent : Option Message
  err : Option String
  state : VisState
deriving DecidableEq, Repr

/-- The `load` loop of `serialize_queue` (viewerclient.py lines 290-296):
for each queued path, read (and thereby vivify) the node, and append a
record only when its geometry list is non-empty. -/
def serializeLoads : LazyTree → List Path → List LoadRecord × LazyTree
  | t, [] => ([], t)
  | t, p :: ps =>
    let node := t.getdescendant p
    let rest := serializeLoads (t.vivify p) ps
    (if node.geometries.isEmpty then rest.1
     else ⟨p, node.geometries.map GeometryData.serialize⟩ :: rest.1, rest.2)

/-- The `draw` loop of `serialize_queue` (viewerclient.py lines 297-302):
for each queued path, read (and thereby vivify) the node and append a record
carrying its current transform, encoded. -/
def serializeDraws : LazyTree → List Path → List DrawRecord × LazyTree
  | t, [] => ([], t)
  | t, p :: ps =>
    let node := t.getdescendant p
    let rest := serializeDraws (t.vivify p) ps
    (⟨p, serialize_transform node.transform⟩ :: rest.1, rest.2)

/-- `CoreVisualizer.serialize_queue` (viewerclient.py lines 284-308).
Returns the built message together with the tree as mutated by the
defaultdict accesses performed while serializing. -/
def CoreVisualizer.serialize_queue (s : VisState) (utime : ℤ) : Message × LazyTree :=
  let deleteRecs := s.queue.delete.map (fun p => DeleteRecord.mk p)
  let loads := serializeLoads s.tree s.queue.load
  let draws := serializeDraws loads.2 s.queue.draw
  (⟨utime, deleteRecs, loads.1, draws.1⟩, draws.2)

/-- `CoreVisualizer.publish` (viewerclient.py lines 277-282): on a non-empty
queue, build the message, hand it to the transport, and clear the queue.  A
raising `lcm.publish` (`sendOk = false`) propagates before `queue.empty()`
is reached, so the queue is left as it was (the tree keeps the mutations
`serialize_queue` performed). -/
def CoreVisualizer.publish (s : VisState) (utime : ℤ) (sendOk : Bool) : OpResult :=
  if s.queue.isempty then ⟨none, none, s⟩
  else
    let built := CoreVisualizer.serialize_queue s utime
    if sendOk then
      ⟨some built.1, none, ⟨built.2, CommandQueue.emptied, s.publish_immediately⟩⟩
    else
      ⟨none, some "transport send failed", ⟨built.2, s.queue, s.publish_immediately⟩⟩

/-- `CoreVisualizer._maybe_publish` (viewerclient.py lines 273-275). -/
def CoreVisualizer._maybe_publish (s : VisState) (utime : ℤ) (sendOk : Bool) : OpResult :=
  if s.publish_immediately then CoreVisualizer.publish s utime sendOk
  else ⟨none, none, s⟩

/-- `CoreVisualizer._handle_response` (viewerclient.py lines 227-238),
reduced to the only field the handler interprets, the decoded `status`:
status 0 does nothing, status 1 marks every descendant path for both load
and draw, anything else raises `ValueError`. -/
def CoreVisualizer._handle_response (s : VisState) (status : ℤ) : Option String × VisState :=
  if status = 0 then (none, s)
  else if status = 1 then
    let q := (s.tree.descendants []).foldl
      (fun (q : CommandQueue) p => ⟨addPath q.draw p, addPath q.load p, q.delete⟩) s.queue
    (none, ⟨s.tree, q, s.publish_immediately⟩)
  else (some "Unhandles response from viewer", s)

/-- Argument items accepted inside a `load` collection: a bare primitive or
a full `GeometryData`. -/
inductive GeomOrData where
  | geom (g : Geometry)
  | gdata (d : GeometryData)
deriving DecidableEq, Repr

/-- The conversion loop of `CoreVisualizer._load` (viewerclient.py lines
249-254): keep `GeometryData` items, wrap bare geometries with the default
color and transform. -/
def convertGeomData (l : List GeomOrData) : List GeometryData :=
  l.map (fun x =>
    match x with
    | .gdata d => d
    | .geom g => GeometryData.ofGeometry g)

/-- `CoreVisualizer._load` (viewerclient.py lines 248-257): convert the
items, replace the target node's geometry list wholesale, mark the path for
load, maybe publish. -/
def CoreVisualizer._load (s : VisState) (path : Path) (geoms : List GeomOrData)
    (utime : ℤ) (sendOk : Bool) : OpResult :=
  let conv := convertGeomData geoms
  let t := s.tree.update path (fun n => .mk conv n.transform n.children)
  CoreVisualizer._maybe_publish
    ⟨t, ⟨s.queue.draw, addPath s.queue.load path, s.queue.delete⟩, s.publish_immediately⟩
    utime sendOk

/-- The three shapes `CoreVisualizer.load` dispatches on (viewerclient.py
lines 240-246): a single `BaseGeometry`, an iterable collection, or a single
`GeometryData` (which is not iterable and falls to the final branch). -/
inductive LoadArg where
  | single (g : Geometry)
  | collection (l : List GeomOrData)
  | gdata (d : GeometryData)
deriving DecidableEq, Repr

/-- `CoreVisualizer.load` (viewerclient.py lines 240-246). -/
def CoreVisualizer.load (s : VisState) (path : Path) (a : LoadArg)
    (utime : ℤ) (sendOk : Bool) : OpResult :=
  match a with
  | .single g => CoreVisualizer._load s path [.gdata (GeometryData.ofGeometry g)] utime sendOk
  | .collection l => CoreVisualizer._load s path l utime sendOk
  | .gdata d => CoreVisualizer._load s path [.gdata d] utime sendOk

/-- `CoreVisualizer.draw` (viewerclient.py lines 259-262): set the target
node's transform, mark the path for draw, maybe publish. -/
def CoreVisualizer.draw (s : VisState) (path : Path) (tform : Mat4)
    (utime : ℤ) (sendOk : Bool) : OpResult :=
  let t := s.tree.update path (fun n => .mk n.geometries tform n.children)
  CoreVisualizer._maybe_publish
    ⟨t, ⟨addPath s.queue.draw path, s.queue.load, s.queue.delete⟩, s.publish_immediately⟩
    utime sendOk

/-- `CoreVisualizer.delete` (viewerclient.py lines 264-271): an empty path
replaces the whole tree by a fresh one; otherwise `getdescendant(path[:-1])`
vivifies the parent chain and `del t.children[path[-1]]` removes the final
child — raising `KeyError` (before the path is queued) when that child does
not exist. -/
def CoreVisualizer.delete (s : VisState) (path : Path) (utime : ℤ) (sendOk : Bool) : OpResult :=
  match path with
  | [] =>
    CoreVisualizer._maybe_publish
      ⟨LazyTree.fresh, ⟨s.queue.draw, s.queue.load, addPath s.queue.delete []⟩,
        s.publish_immediately⟩
      utime sendOk
  | k :: ks =>
    let parent := (k :: ks).dropLast
    let key := (k :: ks).getLast (List.cons_ne_nil k ks)
    let t1 := s.tree.vivify parent
    match eraseChildAt t1 parent key with
    | none => ⟨none, some "KeyError", ⟨t1, s.queue, s.publish_immediately⟩⟩
    | some t2 =>
      CoreVisualizer._maybe_publish
        ⟨t2, ⟨s.queue.draw, s.queue.load, addPath s.queue.delete (k :: ks)⟩,
          s.publish_immediately⟩
        utime sendOk

/-- Splitting a character list at `'/'` (embedding of Python's
`str.split("/")`, which Lean's `String.splitOn` matches but does not reduce
well under the kernel). -/
def splitOnSlash : List Char → List (List Char)
  | [] => [[]]
  | c :: rest =>
    match splitOnSlash rest with
    | [] => [[c]]
    | s :: ss => if c = '/' then [] :: s :: ss else (c :: s) :: ss

/-- The path normalization of `Visualizer.__init__` (viewerclient.py lines
145-156): split a string path on `"/"`; when the first segment is empty
(leading slash), drop all empty segments. -/
def parsePath (str : String) : Path :=
  let parts := (splitOnSlash str.toList).map (fun l => String.mk l)
  match parts with
  | [] => []
  | first :: _ => if first = "" then parts.filter (fun seg => seg ≠ "") else parts

/-- `Visualizer` (viewerclient.py lines 134-200): a path paired with a shared
core; the core's state is passed explicitly in this embedding. -/
structure Visualizer where
  path : Path
deriving DecidableEq, Repr

/-- `Visualizer(path="...")` construction from a string path. -/
def Visualizer.ofString (str : String) : Visualizer := ⟨parsePath str⟩

/-- `Visualizer.load` (viewerclient.py lines 158-168). -/
def Visualizer.load (v : Visualizer) (s : VisState) (a : LoadArg)
    (utime : ℤ) (sendOk : Bool) : OpResult :=
  CoreVisualizer.load s v.path a utime sendOk

/-- `Visualizer.draw` (viewerclient.py lines 170-176). -/
def Visualizer.draw (v : Visualizer) (s : VisState) (tform : Mat4)
    (utime : ℤ) (sendOk : Bool) : OpResult :=
  CoreVisualizer.draw s v.path tform utime sendOk

/-- One mutation call of a load/draw/delete sequence (claim C1). -/
inductive Op where
  | loadOp (p : Path) (g : List GeomOrData)
  | drawOp (p : Path) (tform : Mat4)
  | deleteOp (p : Path)
deriving DecidableEq, Repr

/-- Run one mutation call (in manual-publish mode the `utime`/`sendOk`
arguments are irrelevant). -/
def runOp (s : VisState) : Op → OpResult
  | .loadOp p g => CoreVisualizer._load s p g 0 true
  | .drawOp p t => CoreVisualizer.draw s p t 0 true
  | .deleteOp p => CoreVisualizer.delete s p 0 true

/-- Run a sequence of mutation calls, stopping at the first raised
exception. -/
def runOps : VisState → List Op → Except String VisState
  | s, [] => .ok s
  | s, op :: rest =>
    let r := runOp s op
    match r.err with
    | some e => .error e
    | none => runOps r.state rest

/-- The set of non-empty prefixes of a path (the node named by the path and
every auto-vivified ancestor). -/
def neInits (p : Path) : Finset Path :=
  (p.inits.filter (fun q => q ≠ [])).toFinset

/-- Reference set of claim C1 as stated: paths targeted by a load or draw
call and not since deleted (directly or via an ancestor). -/
def targetedStep (S : Finset Path) : Op → Finset Path
  | .loadOp p _ => insert p S
  | .drawOp p _ => insert p S
  | .deleteOp p => S.filter (fun q => ¬ (p <+: q))

/-- Fold of `targetedStep` over a call sequence, starting empty. -/
def targetedFold (ops : List Op) : Finset Path :=
  ops.foldl targetedStep ∅

/-- Reference set of claim C1 as amended: every non-empty prefix of a path
targeted by a load or draw call, minus subtrees since deleted. -/
def specStep (S : Finset Path) : Op → Finset Path
  | .loadOp p _ => S ∪ neInits p
  | .drawOp p _ => S ∪ neInits p
  | .deleteOp p => S.filter (fun q => ¬ (p <+: q))

/-- Fold of `specStep` over a call sequence, starting empty. -/
def specFold (ops : List Op) : Finset Path :=
  ops.foldl specStep ∅

/-- The geometry list `CoreVisualizer.load` stores for each argument shape
(what "replaces the geometry list wholesale" leaves in the node). -/
def loadedGeometries : LoadArg → List GeometryData
  | .single g => [GeometryData.ofGeometry g]
  | .collection l => convertGeomData l
  | .gdata d => [d]

/-- Well-formedness: at every reachable node the children keys are distinct
(true of every Python dict, and preserved by all operations). -/
def wfTree (t : LazyTree) : Prop :=
  ∀ p : Path, ((t.getdescendant p).children.map Prod.fst).Nodup

/-! ### Helper lemmas: the children association list -/

theorem getChild_setChild_self (ch : List (String × LazyTree)) (k : String) (v : LazyTree) :
    getChild (setChild ch k v) k = some v := by
  induction ch with
  | nil => simp [setChild, getChild]
  | cons hd tl ih =>
    obtain ⟨k0, v0⟩ := hd
    by_cases hk : k0 = k
    · simp [setChild, hk, getChild]
    · simp [setChild, hk, getChild, ih]

theorem getChild_setChild_other (ch : List (String × LazyTree)) (k k' : String) (v : LazyTree)
    (h : k' ≠ k) : getChild (setChild ch k v) k' = getChild ch k' := by
  have hks : ¬ k = k' := fun hh => h hh.symm
  induction ch with
  | nil => simp [setChild, getChild, hks]
  | cons hd tl ih =>
    obtain ⟨k0, v0⟩ := hd
    by_cases hk : k0 = k
    · subst hk
      simp [setChild, getChild, hks]
    · simp [setChild, hk, getChild, ih]

theorem setChild_eq_of_getChild (ch : List (String × LazyTree)) (k : String) (v : LazyTree)
    (h : getChild ch k = some v) : setChild ch k v = ch := by
  induction ch with
  | nil => simp [getChild] at h
  | cons hd tl ih =>
    obtain ⟨k0, v0⟩ := hd
    by_cases hk : k0 = k
    · subst hk
      simp only [getChild, if_pos rfl] at h
      cases h
      simp [setChild]
    · simp only [getChild, if_neg hk] at h
      simp [setChild, hk, ih h]

theorem keys_setChild_of_mem (ch : List (String × LazyTree)) (k : String) (v : LazyTree)
    (h : k ∈ ch.map Prod.fst) : (setChild ch k v).map Prod.fst = ch.map Prod.fst := by
  induction ch with
  | nil => simp at h
  | cons hd tl ih =>
    obtain ⟨k0, v0⟩ := hd
    by_cases hk : k0 = k
    · simp [setChild, hk]
    · simp only [List.map_cons, List.mem_cons] at h
      rcases h with h | h
      · exact absurd h.symm hk
      · simp [setChild, hk, ih h]

theorem keys_setChild_of_not_mem (ch : List (String × LazyTree)) (k : String) (v : LazyTree)
    (h : k ∉ ch.map Prod.fst) : (setChild ch k v).map Prod.fst = ch.map Prod.fst ++ [k] := by
  induction ch with
  | nil => simp [setChild]
  | cons hd tl ih =>
    obtain ⟨k0, v0⟩ := hd
    simp only [List.map_cons, List.mem_cons] at h
    push_neg at h
    have hne : ¬ k0 = k := fun hh => h.1 hh.symm
    simp [setChild, hne, ih h.2]

theorem getChild_isSome_iff (ch : List (String × LazyTree)) (k : String) :
    (getChild ch k).isSome = true ↔ k ∈ ch.map Prod.fst := by
  induction ch with
  | nil => simp [getChild]
  | cons hd tl ih =>
    obtain ⟨k0, v0⟩ := hd
    by_cases hk : k0 = k
    · simp [getChild, hk]
    · have hne : ¬ k = k0 := fun hh => hk hh.symm
      simp [getChild, hk, ih, hne]

theorem delChild_isSome_iff (ch : List (String × LazyTree)) (k : String) :
    (delChild ch k).isSome = true ↔ k ∈ ch.map Prod.fst := by
  induction ch with
  | nil => simp [delChild]
  | cons hd tl ih =>
    obtain ⟨k0, v0⟩ := hd
    by_cases hk : k0 = k
    · simp [delChild, hk]
    · have hne : ¬ k = k0 := fun hh => hk hh.symm
      simp only [delChild, if_neg hk, List.map_cons, List.mem_cons, hne, false_or]
      rw [← ih]
      cases htl : delChild tl k <;> simp

theorem getChild_delChild_other (ch ch' : List (String × LazyTree)) (k k' : String)
    (h : delChild ch k = some ch') (hk : k' ≠ k) : getChild ch' k' = getChild ch k' := by
  induction ch generalizing ch' with
  | nil => simp [delChild] at h
  | cons hd tl ih =>
    obtain ⟨k0, v0⟩ := hd
    by_cases h0 : k0 = k
    · simp only [delChild, if_pos h0, Option.some.injEq] at h
      subst h
      subst h0
      have hne : ¬ k0 = k' := fun hh => hk hh.symm
      simp [getChild, hne]
    · simp only [delChild, if_neg h0] at h
      cases htl : delChild tl k with
      | none => simp [htl] at h
      | some tl' =>
        rw [htl] at h
        simp only [Option.map, Option.some.injEq] at h
        subst h
        simp [getChild, ih tl' htl]

theorem getChild_delChild_self (ch ch' : List (String × LazyTree)) (k : String)
    (h : delChild ch k = some ch') (hnd : (ch.map Prod.fst).Nodup) :
    getChild ch' k = none := by
  induction ch generalizing ch' with
  | nil => simp [delChild] at h
  | cons hd tl ih =>
    obtain ⟨k0, v0⟩ := hd
    simp only [List.map_cons, List.nodup_cons] at hnd
    by_cases h0 : k0 = k
    · subst h0
      simp only [delChild, if_pos rfl, if_true, Option.some.injEq] at h
      subst h
      cases hg : getChild tl k0 with
      | none => rfl
      | some c =>
        exfalso
        refine hnd.1 ?_
        rw [← getChild_isSome_iff, hg]
        rfl
    · simp only [delChild, if_neg h0] at h
      cases htl : delChild tl k with
      | none => simp [htl] at h
      | some tl' =>
        rw [htl] at h
        simp only [Option.map, Option.some.injEq] at h
        subst h
        simp [getChild, h0, ih tl' htl hnd.2]

theorem keys_delChild_sublist (ch ch' : List (String × LazyTree)) (k : String)
    (h : delChild ch k = some ch') : (ch'.map Prod.fst).Sublist (ch.map Prod.fst) := by
  induction ch generalizing ch' with
  | nil => simp [delChild] at h
  | cons hd tl ih =>
    obtain ⟨k0, v0⟩ := hd
    by_cases h0 : k0 = k
    · simp only [delChild, if_pos h0, Option.some.injEq] at h
      subst h
      simp
    · simp only [delChild, if_neg h0] at h
      cases htl : delChild tl k with
      | none => simp [htl] at h
      | some tl' =>
        rw [htl] at h
        simp only [Option.map, Option.some.injEq] at h
        subst h
        simpa using (ih tl' htl).cons₂ k0

/-! ### Helper lemmas: walks, updates, vivification -/

theorem getdescendant_fresh (p : Path) : LazyTree.fresh.getdescendant p = LazyTree.fresh := by
  induction p with
  | nil => rfl
  | cons k ks ih =>
    simp only [LazyTree.getdescendant, LazyTree.fresh, LazyTree.children, getChild,
      Option.getD_none]
    exact ih

theorem contains_fresh (k : String) (ks : Path) :
    LazyTree.fresh.contains (k :: ks) = false := rfl

theorem getdescendant_append (t : LazyTree) (p q : Path) :
    t.getdescendant (p ++ q) = (t.getdescendant p).getdescendant q := by
  induction p generalizing t with
  | nil => rfl
  | cons k ks ih =>
    simp only [List.cons_append, LazyTree.getdescendant]
    exact ih _

theorem getdescendant_of_contains_eq_false (t : LazyTree) (p : Path)
    (h : t.contains p = false) : t.getdescendant p = LazyTree.fresh := by
  induction p generalizing t with
  | nil => simp [LazyTree.contains] at h
  | cons k ks ih =>
    cases hg : getChild t.children k with
    | none =>
      simp only [LazyTree.getdescendant, hg, Option.getD_none]
      exact getdescendant_fresh ks
    | some c =>
      simp only [LazyTree.contains, hg] at h
      simp only [LazyTree.getdescendant, hg, Option.getD_some]
      exact ih c h

theorem contains_append (t : LazyTree) (p q : Path) :
    t.contains (p ++ q) = (t.contains p && (t.getdescendant p).contains q) := by
  induction p generalizing t with
  | nil => simp [LazyTree.contains, LazyTree.getdescendant]
  | cons k ks ih =>
    cases hg : getChild t.children k with
    | none => simp [LazyTree.contains, hg]
    | some c =>
      simp only [List.cons_append, LazyTree.contains, LazyTree.getdescendant, hg,
        Option.getD_some]
      exact ih c

theorem getdescendant_update_append (t : LazyTree) (p r : Path) (f : LazyTree → LazyTree) :
    (t.update p f).getdescendant (p ++ r) = (f (t.getdescendant p)).getdescendant r := by
  induction p generalizing t with
  | nil =>
    cases t with
    | mk g tf ch => rfl
  | cons k ks ih =>
    cases t with
    | mk g tf ch =>
      simp only [LazyTree.update, List.cons_append, LazyTree.getdescendant, LazyTree.children,
        getChild_setChild_self, Option.getD_some]
      exact ih _

theorem getdescendant_update_self (t : LazyTree) (p : Path) (f : LazyTree → LazyTree) :
    (t.update p f).getdescendant p = f (t.getdescendant p) := by
  have h := getdescendant_update_append t p [] f
  simpa using h

theorem getdescendant_update_incomp (t : LazyTree) (p q : Path) (f : LazyTree → LazyTree)
    (h1 : ¬ p <+: q) (h2 : ¬ q <+: p) :
    (t.update p f).getdescendant q = t.getdescendant q := by
  induction q generalizing t p with
  | nil => exact absurd (List.nil_prefix) h2
  | cons b qs ih =>
    cases p with
    | nil => exact absurd List.nil_prefix h1
    | cons a ps =>
      cases t with
      | mk g tf ch =>
        by_cases hab : a = b
        · subst hab
          have h1' : ¬ ps <+: qs := fun hh => h1 (List.cons_prefix_cons.mpr ⟨rfl, hh⟩)
          have h2' : ¬ qs <+: ps := fun hh => h2 (List.cons_prefix_cons.mpr ⟨rfl, hh⟩)
          simp only [LazyTree.update, LazyTree.getdescendant, LazyTree.children,
            getChild_setChild_self, Option.getD_some]
          exact ih ((getChild ch a).getD LazyTree.fresh) ps h1' h2'
        · simp only [LazyTree.update, LazyTree.getdescendant, LazyTree.children]
          rw [getChild_setChild_other ch a b _ (fun hh => hab hh.symm)]

theorem transform_getdescendant_update (t : LazyTree) (p q : Path) (f : LazyTree → LazyTree)
    (htr : ∀ n, (f n).transform = n.transform) (hch : ∀ n, (f n).children = n.children) :
    ((t.update p f).getdescendant q).transform = (t.getdescendant q).transform := by
  induction p generalizing t q with
  | nil =>
    cases t with
    | mk g0 tf0 ch0 =>
      cases q with
      | nil => exact htr _
      | cons b qs =>
        simp only [LazyTree.update, LazyTree.getdescendant, hch]
  | cons a ps ih =>
    cases t with
    | mk g tf ch =>
      cases q with
      | nil => rfl
      | cons b qs =>
        by_cases hab : a = b
        · subst hab
          simp only [LazyTree.update, LazyTree.getdescendant, LazyTree.children,
            getChild_setChild_self, Option.getD_some]
          exact ih _ qs
        · simp only [LazyTree.update, LazyTree.getdescendant, LazyTree.children]
          rw [getChild_setChild_other ch a b _ (fun hh => hab hh.symm)]

theorem geometries_getdescendant_update (t : LazyTree) (p q : Path) (f : LazyTree → LazyTree)
    (hg : ∀ n, (f n).geometries = n.geometries) (hch : ∀ n, (f n).children = n.children) :
    ((t.update p f).getdescendant q).geometries = (t.getdescendant q).geometries := by
  induction p generalizing t q with
  | nil =>
    cases t with
    | mk g0 tf0 ch0 =>
      cases q with
      | nil => exact hg _
      | cons b qs =>
        simp only [LazyTree.update, LazyTree.getdescendant, hch]
  | cons a ps ih =>
    cases t with
    | mk g tf ch =>
      cases q with
      | nil => rfl
      | cons b qs =>
        by_cases hab : a = b
        · subst hab
          simp only [LazyTree.update, LazyTree.getdescendant, LazyTree.children,
            getChild_setChild_self, Option.getD_some]
          exact ih _ qs
        · simp only [LazyTree.update, LazyTree.getdescendant, LazyTree.children]
          rw [getChild_setChild_other ch a b _ (fun hh => hab hh.symm)]

theorem contains_update (t : LazyTree) (p q : Path) (f : LazyTree → LazyTree)
    (hch : ∀ n, (f n).children = n.children) :
    ((t.update p f).contains q = true) ↔ (t.contains q = true ∨ q <+: p) := by
  induction q generalizing t p with
  | nil => simp [LazyTree.contains]
  | cons b qs ih =>
    cases p with
    | nil =>
      cases t with
      | mk g0 tf0 ch0 =>
        have heq : (f (LazyTree.mk g0 tf0 ch0)).contains (b :: qs) =
            (LazyTree.mk g0 tf0 ch0).contains (b :: qs) := by
          simp only [LazyTree.contains, hch]
        simp [LazyTree.update, heq]
    | cons a ps =>
      cases t with
      | mk g tf ch =>
        by_cases hab : a = b
        · subst hab
          simp only [LazyTree.update, LazyTree.contains, LazyTree.children,
            getChild_setChild_self]
          rw [ih]
          cases hg : getChild ch a with
          | some c => simp [hg, List.cons_prefix_cons]
          | none =>
            simp only [hg, Option.getD_none, List.cons_prefix_cons, true_and]
            cases qs with
            | nil => simp [LazyTree.contains]
            | cons c cs => simp [contains_fresh]
        · simp only [LazyTree.update, LazyTree.contains, LazyTree.children]
          rw [getChild_setChild_other ch a b _ (fun hh => hab hh.symm)]
          have hpre : ¬ ((b :: qs) <+: (a :: ps)) := by
            rw [List.cons_prefix_cons]
            rintro ⟨hh, -⟩
            exact hab hh.symm
          simp [hpre]

theorem wf_fresh : wfTree LazyTree.fresh := by
  intro p
  rw [getdescendant_fresh]
  simp [LazyTree.fresh, LazyTree.children]

theorem wf_child (g : List GeometryData) (tf : Mat4) (ch : List (String × LazyTree))
    (k : String) (c : LazyTree) (hg : getChild ch k = some c)
    (h : wfTree (.mk g tf ch)) : wfTree c := by
  intro p
  have h1 := h (k :: p)
  simpa only [LazyTree.getdescendant, LazyTree.children, hg, Option.getD_some] using h1

theorem wf_update (t : LazyTree) (p : Path) (f : LazyTree → LazyTree)
    (hch : ∀ n, (f n).children = n.children) (h : wfTree t) : wfTree (t.update p f) := by
  induction p generalizing t with
  | nil =>
    intro q
    cases t with
    | mk g0 tf0 ch0 =>
      cases q with
      | nil =>
        have h0 := h []
        simp only [LazyTree.getdescendant] at h0 ⊢
        simpa only [LazyTree.update, hch] using h0
      | cons b qs =>
        have heq : (f (LazyTree.mk g0 tf0 ch0)).getdescendant (b :: qs) =
            (LazyTree.mk g0 tf0 ch0).getdescendant (b :: qs) := by
          simp only [LazyTree.getdescendant, hch]
        have h1 := h (b :: qs)
        simpa only [LazyTree.update, heq] using h1
  | cons a ps ih =>
    cases t with
    | mk g tf ch =>
      intro q
      cases q with
      | nil =>
        have h0 := h []
        simp only [LazyTree.getdescendant, LazyTree.children] at h0 ⊢
        simp only [LazyTree.update, LazyTree.children]
        by_cases hmem : a ∈ ch.map Prod.fst
        · rw [keys_setChild_of_mem ch a _ hmem]
          exact h0
        · rw [keys_setChild_of_not_mem ch a _ hmem]
          rw [List.nodup_append]
          refine ⟨h0, List.nodup_singleton a, ?_⟩
          intro x hx hxa
          simp only [List.mem_singleton] at hxa
          subst hxa
          exact hmem hx
      | cons b qs =>
        by_cases hab : a = b
        · subst hab
          have hwfC : wfTree ((getChild ch a).getD LazyTree.fresh) := by
            cases hg : getChild ch a with
            | some c => exact wf_child g tf ch a c hg h
            | none => exact wf_fresh
          have h2 := (ih ((getChild ch a).getD LazyTree.fresh) hwfC) qs
          simp only [LazyTree.getdescendant, LazyTree.children] at h2 ⊢
          simp only [LazyTree.update, LazyTree.children]
          rw [getChild_setChild_self]
          exact h2
        · have h1 := h (b :: qs)
          simp only [LazyTree.getdescendant, LazyTree.children] at h1 ⊢
          simp only [LazyTree.update, LazyTree.children]
          rw [getChild_setChild_other ch a b _ (fun hh => hab hh.symm)]
          exact h1

/-! ### Helper lemmas: tree induction, vivification, erasure -/

theorem nodeCount_le_aux (k : String) (c : LazyTree) (ch : List (String × LazyTree))
    (h : (k, c) ∈ ch) : nodeCount c ≤ nodeCountAux ch := by
  induction ch with
  | nil => cases h
  | cons hd tl ih =>
    rw [show nodeCountAux (hd :: tl) = nodeCount hd.2 + nodeCountAux tl from rfl]
    rcases List.mem_cons.mp h with h1 | h2
    · have he : nodeCount hd.2 = nodeCount c := by rw [← h1]
      omega
    · have := ih h2
      omega

theorem LazyTree.strongInd (motive : LazyTree → Prop)
    (h : ∀ g tf ch, (∀ k c, (k, c) ∈ ch → motive c) → motive (.mk g tf ch)) :
    ∀ t, motive t := by
  have aux : ∀ n t, nodeCount t ≤ n → motive t := by
    intro n
    induction n with
    | zero =>
      intro t ht
      cases t with
      | mk g tf ch => simp [nodeCount] at ht
    | succ n ih =>
      intro t ht
      cases t with
      | mk g tf ch =>
        refine h g tf ch (fun k c hmem => ih c ?_)
        have h1 := nodeCount_le_aux k c ch hmem
        have h2 : nodeCount (.mk g tf ch) = 1 + nodeCountAux ch := rfl
        omega
  exact fun t => aux (nodeCount t) t le_rfl

theorem getChild_mem (ch : List (String × LazyTree)) (k : String) (v : LazyTree)
    (h : getChild ch k = some v) : (k, v) ∈ ch := by
  induction ch with
  | nil => simp [getChild] at h
  | cons hd tl ih =>
    obtain ⟨k0, v0⟩ := hd
    by_cases hk : k0 = k
    · subst hk
      simp only [getChild, if_pos rfl, if_true, Option.some.injEq] at h
      subst h
      exact List.mem_cons_self _ _
    · simp only [getChild, if_neg hk] at h
      exact List.mem_cons_of_mem _ (ih h)

theorem getChild_of_mem_nodup (ch : List (String × LazyTree)) (k : String) (v : LazyTree)
    (hnd : (ch.map Prod.fst).Nodup) (h : (k, v) ∈ ch) : getChild ch k = some v := by
  induction ch with
  | nil => cases h
  | cons hd tl ih =>
    obtain ⟨k0, v0⟩ := hd
    simp only [List.map_cons, List.nodup_cons] at hnd
    rcases List.mem_cons.mp h with h1 | h2
    · rw [Prod.mk.injEq] at h1
      obtain ⟨hk, hv⟩ := h1
      subst hk
      subst hv
      simp [getChild]
    · by_cases hk : k0 = k
      · subst hk
        exfalso
        refine hnd.1 ?_
        exact List.mem_map.mpr ⟨(k0, v), h2, rfl⟩
      · simp only [getChild, if_neg hk]
        exact ih hnd.2 h2

theorem contains_vivify (t : LazyTree) (p q : Path) :
    ((t.vivify p).contains q = true) ↔ (t.contains q = true ∨ q <+: p) :=
  contains_update t p q id (fun _ => rfl)

theorem transform_getdescendant_vivify (t : LazyTree) (p q : Path) :
    (((t.vivify p).getdescendant q)).transform = (t.getdescendant q).transform :=
  transform_getdescendant_update t p q id (fun _ => rfl) (fun _ => rfl)

theorem geometries_getdescendant_vivify (t : LazyTree) (p q : Path) :
    (((t.vivify p).getdescendant q)).geometries = (t.getdescendant q).geometries :=
  geometries_getdescendant_update t p q id (fun _ => rfl) (fun _ => rfl)

theorem vivify_of_contains (t : LazyTree) (p : Path) (h : t.contains p = true) :
    t.vivify p = t := by
  induction p generalizing t with
  | nil =>
    cases t with
    | mk g tf ch => rfl
  | cons k ks ih =>
    cases t with
    | mk g tf ch =>
      cases hg : getChild ch k with
      | none =>
        simp only [LazyTree.contains, LazyTree.children, hg] at h
        exact Bool.noConfusion h
      | some c =>
        simp only [LazyTree.contains, LazyTree.children, hg] at h
        simp only [LazyTree.vivify, LazyTree.update, LazyTree.children, hg, Option.getD_some]
        have hc : LazyTree.update c ks id = c := ih c h
        rw [hc, setChild_eq_of_getChild ch k c hg]

theorem erase_isSome_iff (t : LazyTree) (parent : Path) (key : String) :
    ((eraseChildAt t parent key).isSome = true) ↔ (t.contains (parent ++ [key]) = true) := by
  induction parent generalizing t with
  | nil =>
    cases t with
    | mk g tf ch =>
      simp only [eraseChildAt, List.nil_append]
      rw [Option.isSome_map']
      rw [delChild_isSome_iff, ← getChild_isSome_iff]
      cases hg : getChild ch key with
      | none => simp [LazyTree.contains, LazyTree.children, hg]
      | some c => simp [LazyTree.contains, LazyTree.children, hg]
  | cons k ks ih =>
    cases t with
    | mk g tf ch =>
      cases hg : getChild ch k with
      | none => simp [eraseChildAt, hg, LazyTree.contains, LazyTree.children]
      | some c =>
        simp only [eraseChildAt, hg, List.cons_append, LazyTree.contains, LazyTree.children]
        rw [Option.isSome_map']
        exact ih c

theorem not_append_singleton_prefix (p : Path) (k : String) : ¬ ((p ++ [k]) <+: p) := by
  intro h
  have := h.length_le
  simp at this

theorem contains_of_contains_append (t : LazyTree) (p q : Path)
    (h : t.contains (p ++ q) = true) : t.contains p = true := by
  rw [contains_append] at h
  exact (Bool.and_eq_true_iff.mp h).1

theorem erase_vivify_isSome_iff (t : LazyTree) (parent : Path) (key : String) :
    ((eraseChildAt (t.vivify parent) parent key).isSome = true) ↔
      (t.contains (parent ++ [key]) = true) := by
  rw [erase_isSome_iff, contains_vivify]
  have hnp := not_append_singleton_prefix parent key
  simp [hnp]

theorem contains_erase (t t' : LazyTree) (parent : Path) (key : String) (q : Path)
    (h : eraseChildAt t parent key = some t') (hwf : wfTree t) :
    (t'.contains q = true) ↔ (t.contains q = true ∧ ¬ ((parent ++ [key]) <+: q)) := by
  induction parent generalizing t t' q with
  | nil =>
    cases t with
    | mk g tf ch =>
      simp only [eraseChildAt] at h
      cases hdel : delChild ch key with
      | none => simp [hdel] at h
      | some ch' =>
        rw [hdel] at h
        simp only [Option.map, Option.some.injEq] at h
        subst h
        have hnd : (ch.map Prod.fst).Nodup := by
          have h0 := hwf []
          simpa only [LazyTree.getdescendant, LazyTree.children] using h0
        cases q with
        | nil =>
          simp [LazyTree.contains, List.nil_append]
        | cons b qs =>
          by_cases hb : b = key
          · subst hb
            simp only [LazyTree.contains, LazyTree.children,
              getChild_delChild_self ch ch' b hdel hnd]
            simp [List.cons_prefix_cons]
          · rw [show (LazyTree.mk g tf ch').contains (b :: qs) =
                match getChild ch' b with
                | some c => c.contains qs
                | none => false from rfl]
            rw [getChild_delChild_other ch ch' key b hdel hb]
            have hnp : ¬ (([] ++ [key] : Path) <+: (b :: qs)) := by
              simp only [List.nil_append, List.cons_prefix_cons]
              rintro ⟨hh, -⟩
              exact hb hh.symm
            simp only [hnp, not_false_iff, and_true]
            rfl
  | cons k ks ih =>
    cases t with
    | mk g tf ch =>
      cases hg : getChild ch k with
      | none => simp [eraseChildAt, hg] at h
      | some c =>
        simp only [eraseChildAt, hg] at h
        cases herase : eraseChildAt c ks key with
        | none => simp [herase] at h
        | some c' =>
          rw [herase] at h
          simp only [Option.map, Option.some.injEq] at h
          subst h
          have hwfc : wfTree c := wf_child g tf ch k c hg hwf
          cases q with
          | nil => simp [LazyTree.contains]
          | cons b qs =>
            by_cases hb : b = k
            · subst hb
              simp only [LazyTree.contains, LazyTree.children, getChild_setChild_self, hg]
              rw [ih c c' qs herase hwfc]
              simp [List.cons_prefix_cons]
            · have hne : b ≠ k := hb
              simp only [LazyTree.contains, LazyTree.children]
              rw [getChild_setChild_other ch k b _ hne]
              have hnp : ¬ ((k :: ks ++ [key]) <+: (b :: qs)) := by
                simp only [List.cons_append, List.cons_prefix_cons]
                rintro ⟨hh, -⟩
                exact hne hh.symm
              simp only [hnp, not_false_iff, and_true]

theorem wf_erase (t t' : LazyTree) (parent : Path) (key : String)
    (h : eraseChildAt t parent key = some t') (hwf : wfTree t) : wfTree t' := by
  induction parent generalizing t t' with
  | nil =>
    cases t with
    | mk g tf ch =>
      simp only [eraseChildAt] at h
      cases hdel : delChild ch key with
      | none => simp [hdel] at h
      | some ch' =>
        rw [hdel] at h
        simp only [Option.map, Option.some.injEq] at h
        subst h
        have hnd : (ch.map Prod.fst).Nodup := by
          have h0 := hwf []
          simpa only [LazyTree.getdescendant, LazyTree.children] using h0
        intro q
        cases q with
        | nil =>
          simp only [LazyTree.getdescendant, LazyTree.children]
          exact (keys_delChild_sublist ch ch' key hdel).nodup hnd
        | cons b qs =>
          by_cases hb : b = key
          · subst hb
            simp only [LazyTree.getdescendant, LazyTree.children,
              getChild_delChild_self ch ch' b hdel hnd, Option.getD_none]
            have := wf_fresh qs
            simpa using this
          · simp only [LazyTree.getdescendant, LazyTree.children,
              getChild_delChild_other ch ch' key b hdel hb]
            have h1 := hwf (b :: qs)
            simpa only [LazyTree.getdescendant, LazyTree.children] using h1
  | cons k ks ih =>
    cases t with
    | mk g tf ch =>
      cases hg : getChild ch k with
      | none => simp [eraseChildAt, hg] at h
      | some c =>
        simp only [eraseChildAt, hg] at h
        cases herase : eraseChildAt c ks key with
        | none => simp [herase] at h
        | some c' =>
          rw [herase] at h
          simp only [Option.map, Option.some.injEq] at h
          subst h
          have hwfc' : wfTree c' := ih c c' herase (wf_child g tf ch k c hg hwf)
          intro q
          cases q with
          | nil =>
            simp only [LazyTree.getdescendant, LazyTree.children]
            have hmem : k ∈ ch.map Prod.fst := by
              rw [← getChild_isSome_iff, hg]
              rfl
            rw [keys_setChild_of_mem ch k c' hmem]
            have h0 := hwf []
            simpa only [LazyTree.getdescendant, LazyTree.children] using h0
          | cons b qs =>
            by_cases hb : b = k
            · subst hb
              simp only [LazyTree.getdescendant, LazyTree.children, getChild_setChild_self,
                Option.getD_some]
              exact hwfc' qs
            · simp only [LazyTree.getdescendant, LazyTree.children]
              rw [getChild_setChild_other ch k b _ hb]
              have h1 := hwf (b :: qs)
              simpa only [LazyTree.getdescendant, LazyTree.children] using h1

/-! ### Helper lemmas: descendant enumeration -/

theorem mem_descendantsAux (ch : List (String × LazyTree)) (pre q : Path) :
    q ∈ descendantsAux ch pre ↔
      ∃ k c, (k, c) ∈ ch ∧ (q = pre ++ [k] ∨ q ∈ c.descendants (pre ++ [k])) := by
  induction ch with
  | nil => simp [descendantsAux]
  | cons hd tl ih =>
    obtain ⟨k0, v0⟩ := hd
    simp only [descendantsAux, List.mem_cons, List.mem_append, ih]
    constructor
    · rintro (h | h | h)
      · exact ⟨k0, v0, Or.inl rfl, Or.inl h⟩
      · exact ⟨k0, v0, Or.inl rfl, Or.inr h⟩
      · obtain ⟨k, c, hmem, hh⟩ := h
        exact ⟨k, c, Or.inr hmem, hh⟩
    · rintro ⟨k, c, hmem | hmem, hh⟩
      · rw [Prod.mk.injEq] at hmem
        obtain ⟨h1, h2⟩ := hmem
        subst h1
        subst h2
        rcases hh with hh | hh
        · exact Or.inl hh
        · exact Or.inr (Or.inl hh)
      · exact Or.inr (Or.inr ⟨k, c, hmem, hh⟩)

theorem descendantsAux_map (l : List (String × LazyTree))
    (hm : ∀ k c, (k, c) ∈ l →
      ∀ pre, c.descendants pre = (c.descendants []).map (fun r => pre ++ r)) :
    ∀ pre, descendantsAux l pre = (descendantsAux l []).map (fun r => pre ++ r) := by
  induction l with
  | nil => intro pre; rfl
  | cons hd tl ihl =>
    intro pre
    obtain ⟨k, v⟩ := hd
    simp only [descendantsAux, List.nil_append]
    have h1 := hm k v (List.mem_cons_self _ _) (pre ++ [k])
    have h2 := hm k v (List.mem_cons_self _ _) [k]
    have h3 := ihl (fun k' c' hmem => hm k' c' (List.mem_cons_of_mem _ hmem)) pre
    rw [h1, h2, h3]
    simp [List.map_map, Function.comp, List.append_assoc]

theorem descendants_map : ∀ (t : LazyTree) (pre : Path),
    t.descendants pre = (t.descendants []).map (fun r => pre ++ r) := by
  intro t
  induction t using LazyTree.strongInd with
  | h g tf ch hIH =>
    intro pre
    show descendantsAux ch pre = (descendantsAux ch []).map (fun r => pre ++ r)
    exact descendantsAux_map ch (fun k c hmem => hIH k c hmem) pre

theorem mem_descendants_iff_contains : ∀ (t : LazyTree), wfTree t →
    ∀ q : Path, (q ∈ t.descendants [] ↔ (q ≠ [] ∧ t.contains q = true)) := by
  intro t
  induction t using LazyTree.strongInd with
  | h g tf ch hIH =>
    intro hwf q
    have hnd : (ch.map Prod.fst).Nodup := by
      have h0 := hwf []
      simpa only [LazyTree.getdescendant, LazyTree.children] using h0
    rw [show (LazyTree.mk g tf ch).descendants [] = descendantsAux ch [] from rfl]
    rw [mem_descendantsAux]
    simp only [List.nil_append]
    constructor
    · rintro ⟨k, c, hmem, hh⟩
      have hg : getChild ch k = some c := getChild_of_mem_nodup ch k c hnd hmem
      rcases hh with hh | hh
      · subst hh
        refine ⟨by simp, ?_⟩
        simp [LazyTree.contains, LazyTree.children, hg]
      · rw [descendants_map c [k]] at hh
        obtain ⟨r, hr, hq⟩ := List.mem_map.mp hh
        subst hq
        have hwfc : wfTree c := wf_child g tf ch k c hg hwf
        have hr2 := (hIH k c hmem hwfc r).mp hr
        refine ⟨by simp, ?_⟩
        simp [LazyTree.contains, LazyTree.children, hg, hr2.2]
    · rintro ⟨hne, hcont⟩
      cases q with
      | nil => exact absurd rfl hne
      | cons b qs =>
        cases hg : getChild ch b with
        | none => simp [LazyTree.contains, LazyTree.children, hg] at hcont
        | some c =>
          simp only [LazyTree.contains, LazyTree.children, hg] at hcont
          have hmem := getChild_mem ch b c hg
          cases qs with
          | nil => exact ⟨b, c, hmem, Or.inl rfl⟩
          | cons x xs =>
            have hwfc : wfTree c := wf_child g tf ch b c hg hwf
            have hin : (x :: xs) ∈ c.descendants [] := by
              rw [hIH b c hmem hwfc (x :: xs)]
              exact ⟨by simp, hcont⟩
            refine ⟨b, c, hmem, Or.inr ?_⟩
            rw [descendants_map c [b]]
            exact List.mem_map.mpr ⟨x :: xs, hin, rfl⟩

/-! ### Helper lemmas: queue and serialization -/

theorem mem_addPath (l : List Path) (p q : Path) : q ∈ addPath l p ↔ q ∈ l ∨ q = p := by
  unfold addPath
  by_cases h : p ∈ l
  · simp only [if_pos h]
    constructor
    · exact Or.inl
    · rintro (hq | rfl)
      · exact hq
      · exact h
  · simp [if_neg h]

theorem nodup_addPath (l : List Path) (p : Path) (h : l.Nodup) : (addPath l p).Nodup := by
  unfold addPath
  by_cases hp : p ∈ l
  · simpa [if_pos hp] using h
  · simp only [if_neg hp]
    rw [List.nodup_append]
    refine ⟨h, List.nodup_singleton p, ?_⟩
    intro x hx hxp
    simp only [List.mem_singleton] at hxp
    subst hxp
    exact hp hx

theorem mem_foldl_addPath (ps : List Path) (l : List Path) (q : Path) :
    q ∈ ps.foldl addPath l ↔ q ∈ l ∨ q ∈ ps := by
  induction ps generalizing l with
  | nil => simp
  | cons p ps ih =>
    simp only [List.foldl_cons, ih, mem_addPath, List.mem_cons]
    tauto

theorem foldl_mark_both (ps : List Path) (q : CommandQueue) :
    ps.foldl (fun (q : CommandQueue) p => ⟨addPath q.draw p, addPath q.load p, q.delete⟩) q =
      ⟨ps.foldl addPath q.draw, ps.foldl addPath q.load, q.delete⟩ := by
  induction ps generalizing q with
  | nil => rfl
  | cons p ps ih => simp [List.foldl_cons, ih]

theorem isempty_eq_false_of_mem_draw (q : CommandQueue) (p : Path) (h : p ∈ q.draw) :
    q.isempty = false := by
  cases hq : q.draw with
  | nil =>
    rw [hq] at h
    cases h
  | cons a l => simp [CommandQueue.isempty, hq]

theorem isempty_eq_false_of_mem_load (q : CommandQueue) (p : Path) (h : p ∈ q.load) :
    q.isempty = false := by
  cases hq : q.load with
  | nil =>
    rw [hq] at h
    cases h
  | cons a l => simp [CommandQueue.isempty, hq]

theorem serializeDraws_snd (t : LazyTree) (ps : List Path) :
    (serializeDraws t ps).2 = ps.foldl (fun u p => u.vivify p) t := by
  induction ps generalizing t with
  | nil => rfl
  | cons p ps ih => simp [serializeDraws, ih]

theorem serializeLoads_snd (t : LazyTree) (ps : List Path) :
    (serializeLoads t ps).2 = ps.foldl (fun u p => u.vivify p) t := by
  induction ps generalizing t with
  | nil => rfl
  | cons p ps ih =>
    by_cases hemp : (t.getdescendant p).geometries.isEmpty
    · simp [serializeLoads, hemp, ih]
    · simp [serializeLoads, hemp, ih]

theorem serializeDraws_fst (t : LazyTree) (ps : List Path) :
    (serializeDraws t ps).1 = ps.map (fun p =>
      DrawRecord.mk p (serialize_transform ((t.getdescendant p).transform))) := by
  induction ps generalizing t with
  | nil => rfl
  | cons p ps ih =>
    simp only [serializeDraws, List.map_cons]
    rw [ih]
    congr 1
    refine List.map_congr_left ?_
    intro q hq
    rw [transform_getdescendant_vivify]

theorem serializeLoads_fst (t : LazyTree) (ps : List Path) :
    (serializeLoads t ps).1 = ps.filterMap (fun p =>
      if (t.getdescendant p).geometries.isEmpty then none
      else some (LoadRecord.mk p ((t.getdescendant p).geometries.map GeometryData.serialize))) := by
  induction ps generalizing t with
  | nil => rfl
  | cons p ps ih =>
    have hrest : (serializeLoads (t.vivify p) ps).1 = ps.filterMap (fun q =>
        if (t.getdescendant q).geometries.isEmpty then none
        else some (LoadRecord.mk q ((t.getdescendant q).geometries.map GeometryData.serialize))) := by
      rw [ih]
      refine List.filterMap_congr ?_
      intro q hq
      rw [geometries_getdescendant_vivify]
    have hunf : (serializeLoads t (p :: ps)).1 =
        (if (t.getdescendant p).geometries.isEmpty then (serializeLoads (t.vivify p) ps).1
         else LoadRecord.mk p ((t.getdescendant p).geometries.map GeometryData.serialize) ::
           (serializeLoads (t.vivify p) ps).1) := rfl
    rw [hunf, List.filterMap_cons]
    cases hemp : (t.getdescendant p).geometries.isEmpty with
    | true => simpa using hrest
    | false => simp [hrest]

theorem foldl_vivify_contains (ps : List Path) (t : LazyTree) (q : Path) :
    ((ps.foldl (fun u p => u.vivify p) t).contains q = true) ↔
      (t.contains q = true ∨ ∃ p ∈ ps, q <+: p) := by
  induction ps generalizing t with
  | nil => simp
  | cons p ps ih =>
    simp only [List.foldl_cons, ih, contains_vivify, List.mem_cons]
    constructor
    · rintro ((h | h) | ⟨r, hr, hpre⟩)
      · exact Or.inl h
      · exact Or.inr ⟨p, Or.inl rfl, h⟩
      · exact Or.inr ⟨r, Or.inr hr, hpre⟩
    · rintro (h | ⟨r, hr | hr, hpre⟩)
      · exact Or.inl (Or.inl h)
      · subst hr
        exact Or.inl (Or.inr hpre)
      · exact Or.inr ⟨r, hr, hpre⟩

theorem foldl_vivify_transform (ps : List Path) (t : LazyTree) (q : Path) :
    ((ps.foldl (fun u p => u.vivify p) t).getdescendant q).transform =
      (t.getdescendant q).transform := by
  induction ps generalizing t with
  | nil => rfl
  | cons p ps ih =>
    simp only [List.foldl_cons]
    rw [ih, transform_getdescendant_vivify]

theorem foldl_vivify_geometries (ps : List Path) (t : LazyTree) (q : Path) :
    ((ps.foldl (fun u p => u.vivify p) t).getdescendant q).geometries =
      (t.getdescendant q).geometries := by
  induction ps generalizing t with
  | nil => rfl
  | cons p ps ih =>
    simp only [List.foldl_cons]
    rw [ih, geometries_getdescendant_vivify]

theorem length_filter_eq_one_of_nodup (l : List Path) (p : Path) (hnd : l.Nodup) (hp : p ∈ l) :
    (l.filter (fun q => q = p)).length = 1 := by
  induction l with
  | nil => cases hp
  | cons a l ih =>
    rw [List.nodup_cons] at hnd
    by_cases hap : a = p
    · subst hap
      have hfil : l.filter (fun q => q = a) = [] := by
        rw [List.filter_eq_nil_iff]
        intro b hb
        simp only [decide_eq_true_eq]
        rintro rfl
        exact hnd.1 hb
      simp [List.filter_cons, hfil]
    · rcases List.mem_cons.mp hp with h1 | h1
      · exact absurd h1.symm hap
      · have := ih hnd.2 h1
        simp only [List.filter_cons, decide_eq_true_eq]
        rw [if_neg hap]
        exact this

theorem maybe_publish_batched (s : VisState) (u : ℤ) (b : Bool)
    (h : s.publish_immediately = false) :
    CoreVisualizer._maybe_publish s u b = ⟨none, none, s⟩ := by
  simp [CoreVisualizer._maybe_publish, h]

theorem draw_batched (s : VisState) (p : Path) (tform : Mat4) (u : ℤ) (b : Bool)
    (h : s.publish_immediately = false) :
    CoreVisualizer.draw s p tform u b = ⟨none, none,
      ⟨s.tree.update p (fun n => .mk n.geometries tform n.children),
       ⟨addPath s.queue.draw p, s.queue.load, s.queue.delete⟩, s.publish_immediately⟩⟩ := by
  rw [CoreVisualizer.draw, maybe_publish_batched]
  exact h

theorem load_core_batched (s : VisState) (p : Path) (geoms : List GeomOrData) (u : ℤ) (b : Bool)
    (h : s.publish_immediately = false) :
    CoreVisualizer._load s p geoms u b = ⟨none, none,
      ⟨s.tree.update p (fun n => .mk (convertGeomData geoms) n.transform n.children),
       ⟨s.queue.draw, addPath s.queue.load p, s.queue.delete⟩, s.publish_immediately⟩⟩ := by
  rw [CoreVisualizer._load, maybe_publish_batched]
  exact h

/-! ### Helper lemmas: the mutation API in manual-publish mode -/

theorem delete_batched_nil (s : VisState) (u : ℤ) (b : Bool)
    (h : s.publish_immediately = false) :
    CoreVisualizer.delete s [] u b = ⟨none, none,
      ⟨LazyTree.fresh, ⟨s.queue.draw, s.queue.load, addPath s.queue.delete []⟩,
        s.publish_immediately⟩⟩ := by
  show CoreVisualizer._maybe_publish _ u b = _
  exact maybe_publish_batched _ u b h

theorem delete_batched_cons_none (s : VisState) (k : String) (ks : Path) (u : ℤ) (b : Bool)
    (he : eraseChildAt (s.tree.vivify ((k :: ks).dropLast)) ((k :: ks).dropLast)
      ((k :: ks).getLast (List.cons_ne_nil k ks)) = none) :
    CoreVisualizer.delete s (k :: ks) u b = ⟨none, some "KeyError",
      ⟨s.tree.vivify ((k :: ks).dropLast), s.queue, s.publish_immediately⟩⟩ := by
  simp [CoreVisualizer.delete, he]

theorem delete_batched_cons_some (s : VisState) (k : String) (ks : Path) (t2 : LazyTree)
    (u : ℤ) (b : Bool) (h : s.publish_immediately = false)
    (he : eraseChildAt (s.tree.vivify ((k :: ks).dropLast)) ((k :: ks).dropLast)
      ((k :: ks).getLast (List.cons_ne_nil k ks)) = some t2) :
    CoreVisualizer.delete s (k :: ks) u b = ⟨none, none,
      ⟨t2, ⟨s.queue.draw, s.queue.load, addPath s.queue.delete (k :: ks)⟩,
        s.publish_immediately⟩⟩ := by
  simp [CoreVisualizer.delete, he, maybe_publish_batched, h]

theorem runOps_cons (s : VisState) (op : Op) (rest : List Op) :
    runOps s (op :: rest) =
      (match (runOp s op).err with
       | some e => .error e
       | none => runOps (runOp s op).state rest) := rfl

theorem contains_fresh_iff (q : Path) : (LazyTree.fresh.contains q = true) ↔ q = [] := by
  cases q with
  | nil => simp [LazyTree.contains]
  | cons k ks => simp [contains_fresh]

theorem mem_neInits (p q : Path) : q ∈ neInits p ↔ (q ≠ [] ∧ q <+: p) := by
  unfold neInits
  simp [List.mem_toFinset, List.mem_filter, List.mem_inits, and_comm]

theorem filter_not_nil_prefix_eq_empty (S : Finset Path) :
    S.filter (fun q => ¬ ([] : Path) <+: q) = ∅ := by
  rw [Finset.filter_eq_empty_iff]
  intro q hq
  simp [List.nil_prefix]

/-! ### The C1 tree-shape invariant -/

theorem runOps_shape_aux (ops : List Op) :
    ∀ (s0 : VisState) (S0 : Finset Path), s0.publish_immediately = false → wfTree s0.tree →
      (∀ q : Path, s0.tree.contains q = true ↔ (q = [] ∨ q ∈ S0)) →
      ([] ∉ S0) →
      ∀ s, runOps s0 ops = .ok s →
        s.publish_immediately = false ∧ wfTree s.tree ∧ ([] ∉ ops.foldl specStep S0) ∧
        (∀ q : Path, s.tree.contains q = true ↔ (q = [] ∨ q ∈ ops.foldl specStep S0)) := by
  induction ops with
  | nil =>
    intro s0 S0 hflag hwf hinv hni s hrun
    cases hrun
    exact ⟨hflag, hwf, hni, hinv⟩
  | cons op rest ih =>
    intro s0 S0 hflag hwf hinv hni s hrun
    rw [runOps_cons] at hrun
    cases op with
    | loadOp p g =>
      rw [show runOp s0 (.loadOp p g) = CoreVisualizer._load s0 p g 0 true from rfl,
        load_core_batched s0 p g 0 true hflag] at hrun
      simp only [List.foldl_cons] at *
      refine ih
        { tree := s0.tree.update p (fun n => LazyTree.mk (convertGeomData g) n.transform n.children),
          queue := ⟨s0.queue.draw, addPath s0.queue.load p, s0.queue.delete⟩,
          publish_immediately := s0.publish_immediately }
        (specStep S0 (.loadOp p g)) hflag ?_ ?_ ?_ s hrun
      · exact wf_update s0.tree p _ (fun n => rfl) hwf
      · intro q
        dsimp only
        rw [contains_update s0.tree p q
          (fun n => LazyTree.mk (convertGeomData g) n.transform n.children) (fun n => rfl),
          hinv q]
        show (q = [] ∨ q ∈ S0) ∨ q <+: p ↔ q = [] ∨ q ∈ S0 ∪ neInits p
        rw [Finset.mem_union, mem_neInits]
        by_cases hq : q = []
        · subst hq
          simp [List.nil_prefix]
        · simp only [hq, false_or]
          tauto
      · show ¬ ([] ∈ S0 ∪ neInits p)
        rw [Finset.mem_union, mem_neInits]
        rintro (h | h)
        · exact hni h
        · exact h.1 rfl
    | drawOp p tf =>
      rw [show runOp s0 (.drawOp p tf) = CoreVisualizer.draw s0 p tf 0 true from rfl,
        draw_batched s0 p tf 0 true hflag] at hrun
      simp only [List.foldl_cons] at *
      refine ih
        { tree := s0.tree.update p (fun n => LazyTree.mk n.geometries tf n.children),
          queue := ⟨addPath s0.queue.draw p, s0.queue.load, s0.queue.delete⟩,
          publish_immediately := s0.publish_immediately }
        (specStep S0 (.drawOp p tf)) hflag ?_ ?_ ?_ s hrun
      · exact wf_update s0.tree p _ (fun n => rfl) hwf
      · intro q
        dsimp only
        rw [contains_update s0.tree p q
          (fun n => LazyTree.mk n.geometries tf n.children) (fun n => rfl),
          hinv q]
        show (q = [] ∨ q ∈ S0) ∨ q <+: p ↔ q = [] ∨ q ∈ S0 ∪ neInits p
        rw [Finset.mem_union, mem_neInits]
        by_cases hq : q = []
        · subst hq
          simp [List.nil_prefix]
        · simp only [hq, false_or]
          tauto
      · show ¬ ([] ∈ S0 ∪ neInits p)
        rw [Finset.mem_union, mem_neInits]
        rintro (h | h)
        · exact hni h
        · exact h.1 rfl
    | deleteOp p =>
      cases p with
      | nil =>
        rw [show runOp s0 (.deleteOp []) = CoreVisualizer.delete s0 [] 0 true from rfl,
          delete_batched_nil s0 0 true hflag] at hrun
        simp only [List.foldl_cons] at *
        refine ih
          { tree := LazyTree.fresh,
            queue := ⟨s0.queue.draw, s0.queue.load, addPath s0.queue.delete []⟩,
            publish_immediately := s0.publish_immediately }
          (specStep S0 (.deleteOp [])) hflag wf_fresh ?_ ?_ s hrun
        · intro q
          dsimp only
          rw [contains_fresh_iff]
          show q = [] ↔ q = [] ∨ q ∈ S0.filter (fun r => ¬ ([] : Path) <+: r)
          rw [filter_not_nil_prefix_eq_empty]
          simp
        · show ¬ ([] ∈ S0.filter (fun r => ¬ ([] : Path) <+: r))
          rw [filter_not_nil_prefix_eq_empty]
          simp
      | cons k ks =>
        cases he : eraseChildAt (s0.tree.vivify ((k :: ks).dropLast)) ((k :: ks).dropLast)
            ((k :: ks).getLast (List.cons_ne_nil k ks)) with
        | none =>
          rw [show runOp s0 (.deleteOp (k :: ks)) = CoreVisualizer.delete s0 (k :: ks) 0 true
              from rfl,
            delete_batched_cons_none s0 k ks 0 true he] at hrun
          simp at hrun
        | some t2 =>
          rw [show runOp s0 (.deleteOp (k :: ks)) = CoreVisualizer.delete s0 (k :: ks) 0 true
              from rfl,
            delete_batched_cons_some s0 k ks t2 0 true hflag he] at hrun
          have hsplit : (k :: ks).dropLast ++ [(k :: ks).getLast (List.cons_ne_nil k ks)] =
              k :: ks := List.dropLast_append_getLast (List.cons_ne_nil k ks)
          have hcontkey : s0.tree.contains
              ((k :: ks).dropLast ++ [(k :: ks).getLast (List.cons_ne_nil k ks)]) = true := by
            rw [← erase_vivify_isSome_iff, he]
            rfl
          have hcontparent : s0.tree.contains ((k :: ks).dropLast) = true :=
            contains_of_contains_append _ _ _ hcontkey
          have hviv : s0.tree.vivify ((k :: ks).dropLast) = s0.tree :=
            vivify_of_contains _ _ hcontparent
          rw [hviv] at he
          have hwf2 : wfTree t2 := wf_erase s0.tree t2 _ _ he hwf
          simp only [List.foldl_cons] at *
          refine ih
            { tree := t2,
              queue := ⟨s0.queue.draw, s0.queue.load, addPath s0.queue.delete (k :: ks)⟩,
              publish_immediately := s0.publish_immediately }
            (specStep S0 (.deleteOp (k :: ks))) hflag hwf2 ?_ ?_ s hrun
          · intro q
            dsimp only
            rw [contains_erase s0.tree t2 _ _ q he hwf, hsplit, hinv q]
            show (q = [] ∨ q ∈ S0) ∧ ¬ ((k :: ks) <+: q) ↔
              q = [] ∨ q ∈ S0.filter (fun r => ¬ ((k :: ks) <+: r))
            rw [Finset.mem_filter]
            by_cases hq : q = []
            · subst hq
              have : ¬ ((k :: ks) <+: ([] : Path)) := by
                intro hh
                have := hh.length_le
                simp at this
              simp [this]
            · simp only [hq, false_or]
              try tauto
          · show ¬ ([] ∈ S0.filter (fun r => ¬ ((k :: ks) <+: r)))
            rw [Finset.mem_filter]
            rintro ⟨h1, -⟩
            exact hni h1

/-! ### Helper lemmas: publish and response handling -/

theorem addPath_self_mem (l : List Path) (p : Path) : p ∈ addPath l p :=
  (mem_addPath l p p).mpr (Or.inr rfl)

theorem addPath_idem (l : List Path) (p : Path) : addPath (addPath l p) p = addPath l p := by
  show (if p ∈ addPath l p then addPath l p else addPath l p ++ [p]) = addPath l p
  rw [if_pos (addPath_self_mem l p)]

theorem handle_response_zero (s : VisState) : CoreVisualizer._handle_response s 0 = (none, s) := by
  simp [CoreVisualizer._handle_response]

theorem handle_response_one (s : VisState) :
    CoreVisualizer._handle_response s 1 = (none,
      ⟨s.tree, ⟨(s.tree.descendants []).foldl addPath s.queue.draw,
                (s.tree.descendants []).foldl addPath s.queue.load,
                s.queue.delete⟩, s.publish_immediately⟩) := by
  simp only [CoreVisualizer._handle_response, foldl_mark_both]
  norm_num

theorem handle_response_other (s : VisState) (status : ℤ) (h0 : status ≠ 0) (h1 : status ≠ 1) :
    CoreVisualizer._handle_response s status =
      (some "Unhandles response from viewer", s) := by
  simp [CoreVisualizer._handle_response, h0, h1]

theorem publish_send_ok (s : VisState) (utime : ℤ) (h : s.queue.isempty = false) :
    CoreVisualizer.publish s utime true =
      ⟨some (CoreVisualizer.serialize_queue s utime).1, none,
       ⟨(CoreVisualizer.serialize_queue s utime).2, CommandQueue.emptied,
        s.publish_immediately⟩⟩ := by
  simp [CoreVisualizer.publish, h]

theorem publish_send_fail (s : VisState) (utime : ℤ) (h : s.queue.isempty = false) :
    CoreVisualizer.publish s utime false =
      ⟨none, some "transport send failed",
       ⟨(CoreVisualizer.serialize_queue s utime).2, s.queue, s.publish_immediately⟩⟩ := by
  simp [CoreVisualizer.publish, h]

theorem serialize_queue_draw_list (s : VisState) (utime : ℤ) :
    (CoreVisualizer.serialize_queue s utime).1.draw = s.queue.draw.map (fun p =>
      DrawRecord.mk p (serialize_transform ((s.tree.getdescendant p).transform))) := by
  show (serializeDraws (serializeLoads s.tree s.queue.load).2 s.queue.draw).1 = _
  rw [serializeDraws_fst, serializeLoads_snd]
  refine List.map_congr_left ?_
  intro q hq
  rw [foldl_vivify_transform]

theorem serialize_queue_load_list (s : VisState) (utime : ℤ) :
    (CoreVisualizer.serialize_queue s utime).1.load = s.queue.load.filterMap (fun p =>
      if (s.tree.getdescendant p).geometries.isEmpty then none
      else some (LoadRecord.mk p
        ((s.tree.getdescendant p).geometries.map GeometryData.serialize))) := by
  show (serializeLoads s.tree s.queue.load).1 = _
  rw [serializeLoads_fst]

theorem serialize_queue_delete_list (s : VisState) (utime : ℤ) :
    (CoreVisualizer.serialize_queue s utime).1.delete =
      s.queue.delete.map (fun p => DeleteRecord.mk p) := rfl

theorem serialize_queue_utime (s : VisState) (utime : ℤ) :
    (CoreVisualizer.serialize_queue s utime).1.utime = utime := rfl

theorem serialize_queue_tree (s : VisState) (utime : ℤ) :
    (CoreVisualizer.serialize_queue s utime).2 =
      s.queue.draw.foldl (fun u p => u.vivify p)
        (s.queue.load.foldl (fun u p => u.vivify p) s.tree) := by
  show (serializeDraws (serializeLoads s.tree s.queue.load).2 s.queue.draw).2 = _
  rw [serializeDraws_snd, serializeLoads_snd]


/-- Fixture for C1: the single-call sequence `load(("a","b"), [])`. -/
def c1ops : List Op := [.loadOp ["a", "b"] []]

/-- Fixture for C1: the state reached by running `c1ops` from a fresh
batched synchronizer. -/
def c1state : VisState :=
  ⟨.mk [] eye4 [("a", .mk [] eye4 [("b", .mk [] eye4 [])])], ⟨[], [["a", "b"]], []⟩, false⟩

/-- Fixture for C2: a synchronizer whose draw queue holds one path. -/
def c2state : VisState := ⟨LazyTree.fresh, ⟨[["a"]], [], []⟩, true⟩


/-! ### The claims -/

/-- C1 (counterexample to the claim as stated): after the single call
`load(("a","b"), [])` from a fresh tree, enumerating descendants yields the
auto-created intermediate node `("a",)` as well, which was never itself
targeted by a load or draw call — so the descendant set is strictly larger
than the set of targeted-and-not-deleted paths. -/
theorem spec_C1_counterexample :
    runOps initBatched c1ops = .ok c1state ∧
    (["a"] : Path) ∈ c1state.tree.descendants [] ∧
    (["a"] : Path) ∉ targetedFold c1ops := by
  refine ⟨rfl, by decide, by decide⟩

/-- C1 (amended): for every sequence of load/draw/delete calls from a fresh
synchronizer in manual-publish mode that completes without an exception, the
set of paths enumerated by `descendants` from the root equals the set of
*non-empty prefixes* of the paths targeted by a load or draw call (the
targeted node and every auto-vivified ancestor), minus every subtree deleted
since (directly or via an ancestor). -/
theorem spec_C1_amended (ops : List Op) (s : VisState)
    (hrun : runOps initBatched ops = .ok s) :
    ∀ q : Path, q ∈ s.tree.descendants [] ↔ q ∈ specFold ops := by
  have hinv0 : ∀ q : Path, initBatched.tree.contains q = true ↔
      (q = [] ∨ q ∈ (∅ : Finset Path)) := by
    intro q
    show LazyTree.fresh.contains q = true ↔ _
    rw [contains_fresh_iff]
    simp
  have h := runOps_shape_aux ops initBatched ∅ rfl wf_fresh hinv0 (by simp) s hrun
  intro q
  rw [mem_descendants_iff_contains s.tree h.2.1 q, h.2.2.2 q]
  show q ≠ [] ∧ (q = [] ∨ q ∈ ops.foldl specStep ∅) ↔ q ∈ specFold ops
  unfold specFold
  constructor
  · rintro ⟨hne, h1 | h1⟩
    · exact absurd h1 hne
    · exact h1
  · intro hq
    refine ⟨?_, Or.inr hq⟩
    rintro rfl
    exact h.2.2.1 hq

/-- Witness for C1 (amended) at the concrete one-call sequence `c1ops`. -/
theorem spec_C1_amended_witness :
    ((["a"] : Path) ∈ c1state.tree.descendants [] ↔ (["a"] : Path) ∈ specFold c1ops) :=
  spec_C1_amended c1ops c1state rfl ["a"]

/-- C2 (counterexample to the claim as stated): publishing a non-empty queue
over a transport whose send raises leaves the pending-change sets exactly as
they were — the batch is *not* lost, because `queue.empty()` is only reached
after a successful `lcm.publish`. -/
theorem spec_C2_counterexample :
    (CoreVisualizer.publish c2state 0 false).err = some "transport send failed" ∧
    (CoreVisualizer.publish c2state 0 false).state.queue = c2state.queue ∧
    c2state.queue ≠ CommandQueue.emptied := by
  refine ⟨rfl, rfl, by decide⟩

/-- C2 (amended): after `publish` on a non-empty queue, the three
pending-change sets are empty exactly when the transport send succeeded; a
raising send propagates to the caller with the queue unchanged (the batch is
retained for the next publish, not lost). -/
theorem spec_C2_amended (s : VisState) (utime : ℤ) (h : s.queue.isempty = false) :
    ((CoreVisualizer.publish s utime true).err = none ∧
     (CoreVisualizer.publish s utime true).sent =
       some (CoreVisualizer.serialize_queue s utime).1 ∧
     (CoreVisualizer.publish s utime true).state.queue = CommandQueue.emptied) ∧
    ((CoreVisualizer.publish s utime false).err = some "transport send failed" ∧
     (CoreVisualizer.publish s utime false).sent = none ∧
     (CoreVisualizer.publish s utime false).state.queue = s.queue) := by
  rw [publish_send_ok s utime h, publish_send_fail s utime h]
  exact ⟨⟨rfl, rfl, rfl⟩, ⟨rfl, rfl, rfl⟩⟩

/-- Witness for C2 (amended) at the concrete state `c2state`. -/
theorem spec_C2_amended_witness :
    (CoreVisualizer.publish c2state 0 false).err = some "transport send failed" ∧
    (CoreVisualizer.publish c2state 0 false).sent = none ∧
    (CoreVisualizer.publish c2state 0 false).state.queue = c2state.queue :=
  (spec_C2_amended c2state 0 (by decide)).2

/-- C3 (counterexample to the claim as stated): deleting the path `("a",)`
on a fresh synchronizer — a well-formed path at which no node exists —
raises `KeyError` instead of succeeding. -/
theorem spec_C3_counterexample :
    (CoreVisualizer.delete initState ["a"] 0 true).err = some "KeyError" := by
  decide

/-- C3 (amended): for well-formed paths, delete with an empty path always
succeeds and replaces the whole tree with a fresh empty tree; delete with a
non-empty path succeeds exactly when a node currently exists at that path,
in which case it removes the named child and its whole subtree; when no node
exists at the path it raises `KeyError` (with the pending queue unchanged)
rather than being total. -/
theorem spec_C3_amended (s : VisState) (utime : ℤ) (sendOk : Bool) (k : String) (ks : Path)
    (hflag : s.publish_immediately = false) (hwf : wfTree s.tree) :
    ((CoreVisualizer.delete s [] utime sendOk).err = none ∧
     (CoreVisualizer.delete s [] utime sendOk).state.tree = LazyTree.fresh) ∧
    (s.tree.contains (k :: ks) = false →
      (CoreVisualizer.delete s (k :: ks) utime sendOk).err = some "KeyError" ∧
      (CoreVisualizer.delete s (k :: ks) utime sendOk).state.queue = s.queue) ∧
    (s.tree.contains (k :: ks) = true →
      (CoreVisualizer.delete s (k :: ks) utime sendOk).err = none ∧
      (∀ q : Path,
        (CoreVisualizer.delete s (k :: ks) utime sendOk).state.tree.contains q = true ↔
          (s.tree.contains q = true ∧ ¬ ((k :: ks) <+: q)))) := by
  have hsplit : (k :: ks).dropLast ++ [(k :: ks).getLast (List.cons_ne_nil k ks)] =
      k :: ks := List.dropLast_append_getLast (List.cons_ne_nil k ks)
  refine ⟨?_, ?_, ?_⟩
  · rw [delete_batched_nil s utime sendOk hflag]
    exact ⟨rfl, rfl⟩
  · intro hmiss
    have hnone : eraseChildAt (s.tree.vivify ((k :: ks).dropLast)) ((k :: ks).dropLast)
        ((k :: ks).getLast (List.cons_ne_nil k ks)) = none := by
      rw [← Option.not_isSome_iff_eq_none]
      rw [Bool.not_eq_true, ← Bool.not_eq_true]
      intro hsome
      rw [erase_vivify_isSome_iff, hsplit, hmiss] at hsome
      exact Bool.noConfusion hsome
    rw [delete_batched_cons_none s k ks utime sendOk hnone]
    exact ⟨rfl, rfl⟩
  · intro hcont
    have hsome : (eraseChildAt (s.tree.vivify ((k :: ks).dropLast)) ((k :: ks).dropLast)
        ((k :: ks).getLast (List.cons_ne_nil k ks))).isSome = true := by
      rw [erase_vivify_isSome_iff, hsplit]
      exact hcont
    obtain ⟨t2, he⟩ := Option.isSome_iff_exists.mp hsome
    have hcontparent : s.tree.contains ((k :: ks).dropLast) = true := by
      refine contains_of_contains_append s.tree ((k :: ks).dropLast)
        [(k :: ks).getLast (List.cons_ne_nil k ks)] ?_
      rw [hsplit]
      exact hcont
    have hviv : s.tree.vivify ((k :: ks).dropLast) = s.tree :=
      vivify_of_contains _ _ hcontparent
    rw [hviv] at he
    rw [delete_batched_cons_some s k ks t2 utime sendOk hflag (by rw [hviv]; exact he)]
    refine ⟨rfl, ?_⟩
    intro q
    show t2.contains q = true ↔ _
    rw [contains_erase s.tree t2 _ _ q he hwf, hsplit]

/-- Witness for C3 (amended): the empty-path clause evaluated on a fresh
batched synchronizer. -/
theorem spec_C3_amended_witness :
    (CoreVisualizer.delete initBatched [] 0 true).err = none ∧
    (CoreVisualizer.delete initBatched [] 0 true).state.tree = LazyTree.fresh :=
  (spec_C3_amended initBatched 0 true "a" [] rfl wf_fresh).1

/-- C5: a response whose status is neither 0 nor 1 raises (the `ValueError`
standing for the spec's `ProtocolError`), and the handler returns with the
tree and the pending-change queue untouched. -/
theorem spec_C5 (s : VisState) (status : ℤ) (h0 : status ≠ 0) (h1 : status ≠ 1) :
    (CoreVisualizer._handle_response s status).1 = some "Unhandles response from viewer" ∧
    (CoreVisualizer._handle_response s status).2 = s := by
  rw [handle_response_other s status h0 h1]
  exact ⟨rfl, rfl⟩

/-- Witness for C5 at the concrete unrecognized status 2. -/
theorem spec_C5_witness :
    (CoreVisualizer._handle_response initState 2).1 = some "Unhandles response from viewer" ∧
    (CoreVisualizer._handle_response initState 2).2 = initState :=
  spec_C5 initState 2 (by decide) (by decide)


/-- Fixture for the C4 counterexample: a batched synchronizer after loading
a box at `("a","b")` and flushing — the tree holds the auto-created
empty-geometry group node `("a",)` and the box node `("a","b")`, queue
empty. -/
def c4state : VisState :=
  (CoreVisualizer.publish
    (CoreVisualizer._load initBatched ["a", "b"] [.geom (.box [1, 1, 1])] 0 true).state
    0 true).state

/-- Fixture: the message published right after a status-1 resync of
`c4state`. -/
def c4msg : Message :=
  ((CoreVisualizer.publish (CoreVisualizer._handle_response c4state 1).2 0 true).sent).getD
    ⟨0, [], [], []⟩

/-- Fixture for C8: a queue holding one load mark for a missing node. -/
def c8state : VisState := ⟨LazyTree.fresh, ⟨[], [["a"]], []⟩, true⟩


/-- C4 (amended): a status-0 response changes no state; a status-1 response
adds every descendant path currently in the tree to both the pending load
and draw sets (leaving tree and delete set untouched), so that the next
publish emits a draw record for every path present in the tree at that
moment — and a load record for those among them whose geometry list is
non-empty (an empty-geometry node yields no load record, per the
serialization rule). -/
theorem spec_C4_amended (s : VisState) (utime : ℤ) (p : Path)
    (hp : p ∈ s.tree.descendants []) :
    (CoreVisualizer._handle_response s 0 = (none, s)) ∧
    ((CoreVisualizer._handle_response s 1).1 = none) ∧
    ((CoreVisualizer._handle_response s 1).2.tree = s.tree) ∧
    ((CoreVisualizer._handle_response s 1).2.queue.delete = s.queue.delete) ∧
    (∀ q : Path, q ∈ (CoreVisualizer._handle_response s 1).2.queue.load ↔
      (q ∈ s.queue.load ∨ q ∈ s.tree.descendants [])) ∧
    (∀ q : Path, q ∈ (CoreVisualizer._handle_response s 1).2.queue.draw ↔
      (q ∈ s.queue.draw ∨ q ∈ s.tree.descendants [])) ∧
    (∃ m, (CoreVisualizer.publish (CoreVisualizer._handle_response s 1).2 utime true).sent
        = some m ∧
      (∃ r ∈ m.draw, r.path = p) ∧
      ((s.tree.getdescendant p).geometries ≠ [] → ∃ r ∈ m.load, r.path = p)) := by
  rw [handle_response_one]
  refine ⟨handle_response_zero s, rfl, rfl, rfl, ?_, ?_, ?_⟩
  · intro q
    exact mem_foldl_addPath _ _ q
  · intro q
    exact mem_foldl_addPath _ _ q
  · have hpd : p ∈ (s.tree.descendants []).foldl addPath s.queue.draw :=
      (mem_foldl_addPath _ _ p).mpr (Or.inr hp)
    have hpl : p ∈ (s.tree.descendants []).foldl addPath s.queue.load :=
      (mem_foldl_addPath _ _ p).mpr (Or.inr hp)
    have hne : (⟨(s.tree.descendants []).foldl addPath s.queue.draw,
        (s.tree.descendants []).foldl addPath s.queue.load,
        s.queue.delete⟩ : CommandQueue).isempty = false :=
      isempty_eq_false_of_mem_draw _ p hpd
    rw [publish_send_ok _ utime hne]
    refine ⟨_, rfl, ?_, ?_⟩
    · rw [serialize_queue_draw_list]
      exact ⟨_, List.mem_map.mpr ⟨p, hpd, rfl⟩, rfl⟩
    · intro hgne
      rw [serialize_queue_load_list]
      refine ⟨LoadRecord.mk p ((s.tree.getdescendant p).geometries.map GeometryData.serialize),
        List.mem_filterMap.mpr ⟨p, hpl, ?_⟩, rfl⟩
      rw [if_neg (fun hemp => hgne (List.isEmpty_iff.mp hemp))]

/-- Witness for C4 (amended): the queue-marking clauses evaluated on the
concrete state `c1state` (whose tree holds `("a",)` and `("a","b")`). -/
theorem spec_C4_amended_witness :
    ((["a", "b"] : Path) ∈ (CoreVisualizer._handle_response c1state 1).2.queue.load ↔
      ((["a", "b"] : Path) ∈ c1state.queue.load ∨
       (["a", "b"] : Path) ∈ c1state.tree.descendants [])) :=
  (spec_C4_amended c1state 0 ["a", "b"] (by decide)).2.2.2.2.1 ["a", "b"]

/-- State equation for `draw` in manual-publish mode. -/
theorem draw_batched_state (s : VisState) (p : Path) (tf : Mat4) (u : ℤ) (b : Bool)
    (h : s.publish_immediately = false) :
    (CoreVisualizer.draw s p tf u b).state =
      ⟨s.tree.update p (fun n => LazyTree.mk n.geometries tf n.children),
       ⟨addPath s.queue.draw p, s.queue.load, s.queue.delete⟩, s.publish_immediately⟩ := by
  rw [draw_batched s p tf u b h]

/-- State equation for two successive draws in manual-publish mode. -/
theorem draw_draw_state (s : VisState) (p : Path) (A B : Mat4) (u1 u2 : ℤ)
    (hflag : s.publish_immediately = false) :
    (CoreVisualizer.draw (CoreVisualizer.draw s p A u1 true).state p B u2 true).state =
      ⟨(s.tree.update p (fun n => LazyTree.mk n.geometries A n.children)).update p
          (fun n => LazyTree.mk n.geometries B n.children),
       ⟨addPath (addPath s.queue.draw p) p, s.queue.load, s.queue.delete⟩,
       s.publish_immediately⟩ := by
  rw [draw_batched s p A u1 true hflag]
  exact draw_batched_state _ p B u2 true hflag

/-- State equation for a draw followed by a (converted) load in
manual-publish mode. -/
theorem load_after_draw_state (s : VisState) (p : Path) (T : Mat4) (geoms : List GeomOrData)
    (u1 u2 : ℤ) (hflag : s.publish_immediately = false) :
    (CoreVisualizer._load (CoreVisualizer.draw s p T u1 true).state p geoms u2 true).state =
      ⟨(s.tree.update p (fun n => LazyTree.mk n.geometries T n.children)).update p
          (fun n => LazyTree.mk (convertGeomData geoms) n.transform n.children),
       ⟨addPath s.queue.draw p, addPath s.queue.load p, s.queue.delete⟩,
       s.publish_immediately⟩ := by
  rw [draw_batched s p T u1 true hflag]
  exact congrArg OpResult.state (load_core_batched
    (VisState.mk (s.tree.update p (fun n => LazyTree.mk n.geometries T n.children))
      (CommandQueue.mk (addPath s.queue.draw p) s.queue.load s.queue.delete)
      s.publish_immediately) p geoms u2 true hflag)

/-- One publish emits exactly one draw record per queued draw path, carrying
the encoding of the node transform read at flush time. -/
theorem publish_draw_filter (s : VisState) (u : ℤ) (p : Path)
    (hmem : p ∈ s.queue.draw) (hnd : s.queue.draw.Nodup) :
    ∃ m, (CoreVisualizer.publish s u true).sent = some m ∧
      ((m.draw.filter (fun r => r.path = p)).length = 1) ∧
      (∀ r ∈ m.draw, r.path = p → r.transform =
        serialize_transform ((s.tree.getdescendant p).transform)) := by
  have hne := isempty_eq_false_of_mem_draw _ p hmem
  rw [publish_send_ok s u hne]
  refine ⟨_, rfl, ?_, ?_⟩
  · rw [serialize_queue_draw_list, List.filter_map, List.length_map]
    exact length_filter_eq_one_of_nodup _ p hnd hmem
  · intro r hr hrp
    rw [serialize_queue_draw_list] at hr
    obtain ⟨q, hq, hfq⟩ := List.mem_map.mp hr
    subst hfq
    have hqp : q = p := hrp
    subst hqp
    rfl

/-- C6: two draws on the same path followed by one publish (manual-publish
mode, set-invariant queue) emit exactly one draw record for that path, and
it carries the encoding of the second transform — the node transform at
flush time. -/
theorem spec_C6 (s : VisState) (p : Path) (A B : Mat4) (u1 u2 u3 : ℤ)
    (hflag : s.publish_immediately = false) (hnd : s.queue.draw.Nodup) :
    ∃ m, (CoreVisualizer.publish
        (CoreVisualizer.draw (CoreVisualizer.draw s p A u1 true).state p B u2 true).state
        u3 true).sent = some m ∧
      ((m.draw.filter (fun r => r.path = p)).length = 1) ∧
      (∀ r ∈ m.draw, r.path = p → r.transform = serialize_transform B) := by
  rw [draw_draw_state s p A B u1 u2 hflag]
  obtain ⟨m, hm, hlen, htr⟩ := publish_draw_filter
    (VisState.mk ((s.tree.update p (fun n => LazyTree.mk n.geometries A n.children)).update p
        (fun n => LazyTree.mk n.geometries B n.children))
      (CommandQueue.mk (addPath (addPath s.queue.draw p) p) s.queue.load s.queue.delete)
      s.publish_immediately)
    u3 p (addPath_self_mem _ p) (nodup_addPath _ p (nodup_addPath _ p hnd))
  refine ⟨m, hm, hlen, ?_⟩
  intro r hr hrp
  rw [htr r hr hrp]
  dsimp only
  rw [getdescendant_update_self]
  rfl

/-- Witness for C6 on a fresh batched synchronizer. -/
theorem spec_C6_witness :
    ∃ m, (CoreVisualizer.publish
        (CoreVisualizer.draw (CoreVisualizer.draw initBatched ["x"] eye4 0 true).state
          ["x"] eye4 0 true).state 0 true).sent = some m ∧
      ((m.draw.filter (fun r => r.path = (["x"] : Path))).length = 1) ∧
      (∀ r ∈ m.draw, r.path = (["x"] : Path) → r.transform = serialize_transform eye4) :=
  spec_C6 initBatched ["x"] eye4 eye4 0 0 0 rfl (by decide)

/-- C7: a draw followed by a load on the same path (manual-publish mode)
replaces the node's geometry list wholesale with the normalized argument but
leaves the transform from the draw unchanged. -/
theorem spec_C7 (s : VisState) (p : Path) (T : Mat4) (a : LoadArg) (u1 u2 : ℤ)
    (hflag : s.publish_immediately = false) :
    (((CoreVisualizer.load (CoreVisualizer.draw s p T u1 true).state p a u2
        true).state.tree.getdescendant p).transform = T) ∧
    (((CoreVisualizer.load (CoreVisualizer.draw s p T u1 true).state p a u2
        true).state.tree.getdescendant p).geometries = loadedGeometries a) := by
  cases a with
  | single g =>
    have hst := load_after_draw_state s p T [.gdata (GeometryData.ofGeometry g)] u1 u2 hflag
    constructor
    · show ((CoreVisualizer._load (CoreVisualizer.draw s p T u1 true).state p
          [.gdata (GeometryData.ofGeometry g)] u2 true).state.tree.getdescendant p).transform = T
      rw [hst]
      show (((s.tree.update p (fun n => LazyTree.mk n.geometries T n.children)).update p
        (fun n => LazyTree.mk (convertGeomData [.gdata (GeometryData.ofGeometry g)])
          n.transform n.children)).getdescendant p).transform = T
      rw [getdescendant_update_self]
      show (((s.tree.update p (fun n => LazyTree.mk n.geometries T n.children)).getdescendant
        p)).transform = T
      rw [getdescendant_update_self]
      rfl
    · show ((CoreVisualizer._load (CoreVisualizer.draw s p T u1 true).state p
          [.gdata (GeometryData.ofGeometry g)] u2 true).state.tree.getdescendant p).geometries =
        loadedGeometries (.single g)
      rw [hst]
      show (((s.tree.update p (fun n => LazyTree.mk n.geometries T n.children)).update p
        (fun n => LazyTree.mk (convertGeomData [.gdata (GeometryData.ofGeometry g)])
          n.transform n.children)).getdescendant p).geometries = loadedGeometries (.single g)
      rw [getdescendant_update_self]
      rfl
  | collection l =>
    have hst := load_after_draw_state s p T l u1 u2 hflag
    constructor
    · show ((CoreVisualizer._load (CoreVisualizer.draw s p T u1 true).state p
          l u2 true).state.tree.getdescendant p).transform = T
      rw [hst]
      show (((s.tree.update p (fun n => LazyTree.mk n.geometries T n.children)).update p
        (fun n => LazyTree.mk (convertGeomData l) n.transform n.children)).getdescendant
          p).transform = T
      rw [getdescendant_update_self]
      show (((s.tree.update p (fun n => LazyTree.mk n.geometries T n.children)).getdescendant
        p)).transform = T
      rw [getdescendant_update_self]
      rfl
    · show ((CoreVisualizer._load (CoreVisualizer.draw s p T u1 true).state p
          l u2 true).state.tree.getdescendant p).geometries = loadedGeometries (.collection l)
      rw [hst]
      show (((s.tree.update p (fun n => LazyTree.mk n.geometries T n.children)).update p
        (fun n => LazyTree.mk (convertGeomData l) n.transform n.children)).getdescendant
          p).geometries = loadedGeometries (.collection l)
      rw [getdescendant_update_self]
      rfl
  | gdata d =>
    have hst := load_after_draw_state s p T [.gdata d] u1 u2 hflag
    constructor
    · show ((CoreVisualizer._load (CoreVisualizer.draw s p T u1 true).state p
          [.gdata d] u2 true).state.tree.getdescendant p).transform = T
      rw [hst]
      show (((s.tree.update p (fun n => LazyTree.mk n.geometries T n.children)).update p
        (fun n => LazyTree.mk (convertGeomData [.gdata d]) n.transform n.children)).getdescendant
          p).transform = T
      rw [getdescendant_update_self]
      show (((s.tree.update p (fun n => LazyTree.mk n.geometries T n.children)).getdescendant
        p)).transform = T
      rw [getdescendant_update_self]
      rfl
    · show ((CoreVisualizer._load (CoreVisualizer.draw s p T u1 true).state p
          [.gdata d] u2 true).state.tree.getdescendant p).geometries =
        loadedGeometries (.gdata d)
      rw [hst]
      show (((s.tree.update p (fun n => LazyTree.mk n.geometries T n.children)).update p
        (fun n => LazyTree.mk (convertGeomData [.gdata d]) n.transform n.children)).getdescendant
          p).geometries = loadedGeometries (.gdata d)
      rw [getdescendant_update_self]
      rfl

/-- Witness for C7 with a triad loaded over a drawn identity transform. -/
theorem spec_C7_witness :
    (((CoreVisualizer.load (CoreVisualizer.draw initBatched ["x"] eye4 0 true).state ["x"]
        (.single .triad) 0 true).state.tree.getdescendant ["x"]).transform = eye4) ∧
    (((CoreVisualizer.load (CoreVisualizer.draw initBatched ["x"] eye4 0 true).state ["x"]
        (.single .triad) 0 true).state.tree.getdescendant ["x"]).geometries =
      loadedGeometries (.single .triad)) :=
  spec_C7 initBatched ["x"] eye4 (.single .triad) 0 0 rfl

/-- C8: a successful publish on a non-empty queue emits load records only
for marked paths whose node currently holds a non-empty geometry list; a
load mark whose node is empty (or was deleted, its read auto-creating an
empty node) contributes no load record, yet the whole queue — all marks —
is cleared. -/
theorem spec_C8 (s : VisState) (utime : ℤ) (h : s.queue.isempty = false) :
    ∃ m, (CoreVisualizer.publish s utime true).sent = some m ∧
      (∀ r ∈ m.load, r.path ∈ s.queue.load ∧ (s.tree.getdescendant r.path).geometries ≠ []) ∧
      (∀ p ∈ s.queue.load, (s.tree.getdescendant p).geometries = [] →
        (∀ r ∈ m.load, r.path ≠ p)) ∧
      (CoreVisualizer.publish s utime true).state.queue = CommandQueue.emptied := by
  rw [publish_send_ok s utime h]
  refine ⟨_, rfl, ?_, ?_, rfl⟩
  · intro r hr
    rw [serialize_queue_load_list] at hr
    obtain ⟨q, hq, hf⟩ := List.mem_filterMap.mp hr
    by_cases hemp : (s.tree.getdescendant q).geometries.isEmpty
    · rw [if_pos hemp] at hf
      cases hf
    · rw [if_neg hemp] at hf
      simp only [Option.some.injEq] at hf
      subst hf
      refine ⟨hq, ?_⟩
      intro hgeq
      exact hemp (by rw [hgeq]; rfl)
  · intro p hp hgeom r hr hrp
    rw [serialize_queue_load_list] at hr
    obtain ⟨q, hq, hf⟩ := List.mem_filterMap.mp hr
    by_cases hemp : (s.tree.getdescendant q).geometries.isEmpty
    · rw [if_pos hemp] at hf
      cases hf
    · rw [if_neg hemp] at hf
      simp only [Option.some.injEq] at hf
      subst hf
      have hqp : q = p := hrp
      subst hqp
      exact hemp (by rw [hgeom]; rfl)

/-- Witness for C8: a queue holding one load mark for a path whose node does
not exist (so its lazy read yields an empty geometry list). -/
theorem spec_C8_witness :
    ∃ m, (CoreVisualizer.publish c8state 0 true).sent = some m ∧
      (∀ r ∈ m.load, r.path ∈ c8state.queue.load ∧
        (c8state.tree.getdescendant r.path).geometries ≠ []) ∧
      (∀ p ∈ c8state.queue.load, (c8state.tree.getdescendant p).geometries = [] →
        (∀ r ∈ m.load, r.path ≠ p)) ∧
      (CoreVisualizer.publish c8state 0 true).state.queue = CommandQueue.emptied :=
  spec_C8 c8state 0 (by decide)

/-- C10: serializing the queue mutates the tree — every queued load or draw
path with no node in the tree is auto-created as a fresh node (empty
geometry list, identity transform), and a queued draw mark for such a path
still emits a draw record carrying the encoded identity transform. -/
theorem spec_C10 (s : VisState) (utime : ℤ) (p : Path)
    (hp : p ∈ s.queue.draw ∨ p ∈ s.queue.load) (hmiss : s.tree.contains p = false) :
    ((CoreVisualizer.serialize_queue s utime).2.contains p = true) ∧
    (((CoreVisualizer.serialize_queue s utime).2.getdescendant p).geometries = []) ∧
    (((CoreVisualizer.serialize_queue s utime).2.getdescendant p).transform = eye4) ∧
    (p ∈ s.queue.draw → ∃ r ∈ (CoreVisualizer.serialize_queue s utime).1.draw,
      r.path = p ∧ r.transform = serialize_transform eye4) := by
  have hfreshnode : s.tree.getdescendant p = LazyTree.fresh :=
    getdescendant_of_contains_eq_false s.tree p hmiss
  refine ⟨?_, ?_, ?_, ?_⟩
  · rw [serialize_queue_tree, foldl_vivify_contains]
    rcases hp with hp | hp
    · exact Or.inr ⟨p, hp, List.prefix_refl p⟩
    · refine Or.inl ?_
      rw [foldl_vivify_contains]
      exact Or.inr ⟨p, hp, List.prefix_refl p⟩
  · rw [serialize_queue_tree, foldl_vivify_geometries, foldl_vivify_geometries, hfreshnode]
    rfl
  · rw [serialize_queue_tree, foldl_vivify_transform, foldl_vivify_transform, hfreshnode]
    rfl
  · intro hpd
    rw [serialize_queue_draw_list]
    refine ⟨_, List.mem_map.mpr ⟨p, hpd, rfl⟩, rfl, ?_⟩
    show serialize_transform ((s.tree.getdescendant p).transform) = _
    rw [hfreshnode]
    rfl

/-- Witness for C10: a drawn-then-never-created path on a fresh tree. -/
theorem spec_C10_witness :
    ((CoreVisualizer.serialize_queue c2state 0).2.contains ["a"] = true) ∧
    (((CoreVisualizer.serialize_queue c2state 0).2.getdescendant ["a"]).geometries = []) ∧
    (((CoreVisualizer.serialize_queue c2state 0).2.getdescendant ["a"]).transform = eye4) ∧
    ((["a"] : Path) ∈ c2state.queue.draw →
      ∃ r ∈ (CoreVisualizer.serialize_queue c2state 0).1.draw,
        r.path = (["a"] : Path) ∧ r.transform = serialize_transform eye4) :=
  spec_C10 c2state 0 ["a"] (by decide) (by decide)

section RatEval

attribute [local semireducible] Rat.mul Rat.inv Rat.add Rat.sub

/-- C4 (counterexample to the claim as stated): after a status-1 resync the
next publish does *not* emit a load record for every path present in the
tree — the group node `("a",)` is present (and marked for both load and
draw) but its geometry list is empty, so the published message carries a
draw record yet no load record for it. -/
theorem spec_C4_counterexample :
    (["a"] : Path) ∈ c4state.tree.descendants [] ∧
    (CoreVisualizer.publish (CoreVisualizer._handle_response c4state 1).2 0 true).sent =
      some c4msg ∧
    (∀ r ∈ c4msg.load, r.path ≠ (["a"] : Path)) ∧
    (∃ r ∈ c4msg.draw, r.path = (["a"] : Path)) := by
  exact ⟨by decide, by decide, by decide, by decide⟩

/-- C9: loading `Box([1,1,1])` at `"/a/b"` through a `Visualizer` handle on
a fresh synchronizer publishes a message whose load list is exactly one
record with path `["a","b"]`, a box of lengths `[1,1,1]`, the default
opaque-white color, and the encoded identity transform (zero translation,
identity quaternion `[1,0,0,0]`). -/
theorem spec_C9 (utime : ℤ) :
    ((Visualizer.ofString "/a/b").load initState (.single (.box [1, 1, 1])) utime true).sent =
      some ⟨utime, [], [⟨["a", "b"],
        [⟨ShapeParams.box [1, 1, 1], [1, 1, 1, 1], ⟨[0, 0, 0], [1, 0, 0, 0]⟩⟩]⟩], []⟩ ∧
    (ShapeParams.box [1, 1, 1]).type = "box" ∧
    serialize_transform eye4 = ⟨[0, 0, 0], [1, 0, 0, 0]⟩ := by
  exact ⟨rfl, rfl, rfl⟩

end RatEval

end Viewer
